import Mathlib

/-!
Verification development for the search subsystem of the `mcp-nextcloud`
repository (TypeScript).  The definitions below are a shallow embedding of
`src/utils/content-extractor.ts` (classes `ContentExtractor`, `ContentAnalyzer`
and `SearchEngine`) together with the data model of
`src/models/webdav-search.ts`.

Modelling conventions:
* JavaScript strings are Lean `String`s; the per-character operations are
  defined over `List Char` (`String.data`).  `toLowerCase` is modelled by the
  ASCII `Char.toLower` (all characters appearing in the code's own string
  literals are ASCII).
* JavaScript numbers are modelled by the exact fraction type `JsNum`
  (numerator/denominator, denominator positive, no normalisation), with an
  interpretation `JsNum.val : ℚ`.  The floating literal `0.7` is modelled by
  the exact rational 7/10.
* `async` code is modelled by explicit state passing; the remote store and the
  `FileIndexer` (whose walk races a wall-clock timeout and interleaves up to
  three concurrent subdirectory walks, so its internals are not
  deterministically embeddable) are abstracted as an oracle record holding
  `getIndex`, `listDirectory` and `readFile`, each returning `Except` the way
  the corresponding `Promise` resolves or rejects.
* JavaScript `Map`s are association lists; `Map.set` on an existing key keeps
  the entry's position, a new key is appended (JS insertion-order semantics).
* `Array.prototype.sort` (stable in V8) is modelled by the stable
  `List.insertionSort`: any two stable sorts by the same total preorder agree.
-/

/-! ## JavaScript character and string primitives -/

/-- `\w` of JavaScript regexes: `[A-Za-z0-9_]`. -/
def isWordChar (c : Char) : Bool :=
  (('a' ≤ c && c ≤ 'z') || ('A' ≤ c && c ≤ 'Z') || ('0' ≤ c && c ≤ '9') || c = '_')

/-- `\s` of JavaScript regexes (WhiteSpace ∪ LineTerminator). -/
def isJsWs (c : Char) : Bool :=
  (9 ≤ c.toNat && c.toNat ≤ 13) || c.toNat = 32 || c.toNat = 0xa0 ||
    c.toNat = 0x1680 || (0x2000 ≤ c.toNat && c.toNat ≤ 0x200a) ||
    c.toNat = 0x2028 || c.toNat = 0x2029 || c.toNat = 0x202f ||
    c.toNat = 0x205f || c.toNat = 0x3000 || c.toNat = 0xfeff

/-- The character class `[\x00-\x08\x0B\x0C\x0E-\x1F\x7F]` stripped by
`cleanTextContent`'s second `replace`. -/
def isStrippedCtrl (c : Char) : Bool :=
  c.toNat ≤ 8 || c.toNat = 0xb || c.toNat = 0xc ||
    (0xe ≤ c.toNat && c.toNat ≤ 0x1f) || c.toNat = 0x7f

/-- JavaScript `toLowerCase` (ASCII range, see the modelling conventions);
written over the character list so that the kernel can evaluate it. -/
def lc (s : String) : String := String.mk (s.data.map Char.toLower)

/-- JS `String.split(sep)` for a one-character separator. -/
def splitCharGo (sep : Char) (acc : List Char) : List Char → List (List Char)
  | [] => [acc.reverse]
  | c :: rest =>
    if c = sep then acc.reverse :: splitCharGo sep [] rest
    else splitCharGo sep (c :: acc) rest

def splitChar (sep : Char) (s : String) : List String :=
  (splitCharGo sep [] s.data).map String.mk

/-- JS `Array.prototype.join(sep)`. -/
def joinSep (sep : String) : List String → String
  | [] => ""
  | [s] => s
  | s :: rest => s ++ sep ++ joinSep sep rest

/-- Code-unit lexicographic `<=` on strings (JS `<=`), kernel-evaluable. -/
def lexLe : List Char → List Char → Bool
  | [], _ => true
  | _ :: _, [] => false
  | a :: as, b :: bs => if a < b then true else if b < a then false else lexLe as bs

/-- Does `pat` occur as a contiguous run inside `l`?  (JS `String.includes`.) -/
def isInfixCL (pat : List Char) : List Char → Bool
  | [] => pat.isEmpty
  | c :: rest => pat.isPrefixOf (c :: rest) || isInfixCL pat rest

/-- Index of the first occurrence of `pat` in `l` (JS `String.indexOf`,
`none` for -1). -/
def idxOfInfix (pat : List Char) : List Char → Option Nat
  | [] => if pat.isEmpty then some 0 else none
  | c :: rest =>
    if pat.isPrefixOf (c :: rest) then some 0
    else (idxOfInfix pat rest).map (· + 1)

/-- JS `String.indexOf(pat, from)`: absolute index of the first occurrence of
`pat` at or after position `from`. -/
def jsIndexOfFrom (l pat : List Char) (start : Nat) : Option Nat :=
  (idxOfInfix pat (l.drop start)).map (· + min start l.length)

def strContains (s pat : String) : Bool := isInfixCL pat.data s.data

def strStartsWith (s pat : String) : Bool := pat.data.isPrefixOf s.data

def strEndsWith (s pat : String) : Bool := pat.data.reverse.isPrefixOf s.data.reverse

/-- Number of non-overlapping occurrences of `pat` in the remaining text, as
counted by `text.match(new RegExp(pat, 'g'))` for a pattern without regex
metacharacters.  Fuel-driven so that the kernel can evaluate it; the wrapper
passes the text length, which bounds the number of steps. -/
def countMatchesGo (pat : List Char) : Nat → List Char → Nat
  | 0, _ => 0
  | _, [] => 0
  | fuel + 1, c :: rest =>
    if pat.isPrefixOf (c :: rest) then
      1 + countMatchesGo pat fuel ((c :: rest).drop pat.length)
    else
      countMatchesGo pat fuel rest

/-- JS `(text.match(new RegExp(pat, 'g')) || []).length` for a literal
pattern; the empty pattern matches at every position. -/
def countMatches (pat text : List Char) : Nat :=
  if pat.isEmpty then text.length + 1 else countMatchesGo pat text.length text

/-- Maximal runs of word characters (the tokens produced by
`replace(/[^\w\s]/g, ' ')` followed by `split(/\s+/)` and the non-emptiness
filter).  Fuel-driven with fuel bounded by the list length. -/
def wordTokensGo : Nat → List Char → List (List Char)
  | 0, _ => []
  | _, [] => []
  | fuel + 1, c :: rest =>
    if isWordChar c then
      (c :: rest.takeWhile isWordChar) :: wordTokensGo fuel (rest.dropWhile isWordChar)
    else
      wordTokensGo fuel rest

def wordTokens (l : List Char) : List (List Char) := wordTokensGo l.length l

/-- Maximal runs of non-whitespace characters. -/
def wsTokensGo : Nat → List Char → List (List Char)
  | 0, _ => []
  | _, [] => []
  | fuel + 1, c :: rest =>
    if isJsWs c then wsTokensGo fuel rest
    else
      (c :: rest.takeWhile (fun d => !isJsWs d)) ::
        wsTokensGo fuel (rest.dropWhile (fun d => !isJsWs d))

def wsTokens (l : List Char) : List (List Char) := wsTokensGo l.length l

/-- JS `split(/\s+/)`: separators are maximal whitespace runs; a leading
(resp. trailing) separator contributes a leading (resp. trailing) empty
field, and the empty string splits to `[""]`. -/
def jsSplitWs (s : String) : List String :=
  match s.data with
  | [] => [""]
  | c :: rest =>
    let toks := (wsTokens (c :: rest)).map (fun t => String.mk t)
    let toks := if isJsWs c then "" :: toks else toks
    if isJsWs ((c :: rest).getLast (by simp)) then toks ++ [""] else toks

/-- One step of `replace(/\s+/g, ' ')`: every maximal whitespace run becomes a
single space. -/
def collapseWsGo : Nat → List Char → List Char
  | 0, _ => []
  | _, [] => []
  | fuel + 1, c :: rest =>
    if isJsWs c then ' ' :: collapseWsGo fuel (rest.dropWhile isJsWs)
    else c :: collapseWsGo fuel rest

def collapseWs (l : List Char) : List Char := collapseWsGo l.length l

/-- JS `String.trim()`. -/
def jsTrim (l : List Char) : List Char :=
  ((l.dropWhile isJsWs).reverse.dropWhile isJsWs).reverse

/-- JS `String.substring(start, stop)` (arguments already clamped and ordered
at every call site modelled here). -/
def jsSubstring (s : String) (start stop : Nat) : String :=
  String.mk ((s.data.drop start).take (stop - start))

/-- Deduplication by `[...new Set(l)]`: keeps the first occurrence of each
element, in insertion order. -/
def jsDedupGo [DecidableEq α] (seen : List α) : List α → List α
  | [] => []
  | a :: rest =>
    if a ∈ seen then jsDedupGo seen rest else a :: jsDedupGo (a :: seen) rest

def jsDedup [DecidableEq α] (l : List α) : List α := jsDedupGo [] l

/-- Code-unit lexicographic comparison of strings, used to model both the
default `Array.prototype.sort()` comparator and (for the ASCII names appearing
here) `String.localeCompare`. -/
def strLe (a b : String) : Bool := lexLe a.data b.data

/-- JS `array.sort()` on an array of strings (stable, default string
comparator). -/
def jsSortStrs (l : List String) : List String :=
  List.insertionSort (fun a b => strLe a b = true) l

/-- JS `x || d` for an optional string field (`""` and `undefined` are
falsy). -/
def jsOrS : Option String → String → String
  | some s, d => if s = "" then d else s
  | none, d => d

/-- JS `x || d` for an optional numeric field (`0` and `undefined` are
falsy). -/
def jsOrN : Option Nat → Nat → Nat
  | some n, d => if n = 0 then d else n
  | none, d => d

/-! ## Exact model of the JavaScript numbers used by the scoring code -/

/-- An unnormalised fraction with positive denominator.  All the arithmetic
the search scoring performs is exact on rationals, and this representation
kernel-evaluates (Mathlib's `Rat` operations do not). -/
structure JsNum where
  num : Int
  den : Int
  den_pos : 0 < den

instance : DecidableEq JsNum := fun a b =>
  if h : a.num = b.num ∧ a.den = b.den then
    isTrue (by cases a; cases b; simp_all)
  else
    isFalse (by intro he; cases he; simp_all)

def JsNum.ofInt (n : Int) : JsNum := ⟨n, 1, Int.one_pos⟩

def JsNum.ofNat (n : Nat) : JsNum := ⟨n, 1, Int.one_pos⟩

def JsNum.add (a b : JsNum) : JsNum :=
  ⟨a.num * b.den + b.num * a.den, a.den * b.den, Int.mul_pos a.den_pos b.den_pos⟩

def JsNum.sub (a b : JsNum) : JsNum :=
  ⟨a.num * b.den - b.num * a.den, a.den * b.den, Int.mul_pos a.den_pos b.den_pos⟩

def JsNum.mul (a b : JsNum) : JsNum :=
  ⟨a.num * b.num, a.den * b.den, Int.mul_pos a.den_pos b.den_pos⟩

/-- Division; every division performed by the modelled code has a positive
divisor, the remaining arms keep the denominator positive by fiat. -/
def JsNum.div (a b : JsNum) : JsNum :=
  if h : 0 < b.num then ⟨a.num * b.den, a.den * b.num, Int.mul_pos a.den_pos h⟩
  else if h' : b.num < 0 then
    ⟨-(a.num * b.den), a.den * (-b.num), Int.mul_pos a.den_pos (by omega)⟩
  else ⟨0, 1, Int.one_pos⟩

def JsNum.le (a b : JsNum) : Bool := decide (a.num * b.den ≤ b.num * a.den)

def JsNum.lt (a b : JsNum) : Bool := decide (a.num * b.den < b.num * a.den)

/-- Value equality of JS numbers (`===` on numbers). -/
def JsNum.eqv (a b : JsNum) : Bool := decide (a.num * b.den = b.num * a.den)

/-- `Math.min`. -/
def jsMin (a b : JsNum) : JsNum := if JsNum.lt b a then b else a

/-- `Math.max`. -/
def jsMax (a b : JsNum) : JsNum := if JsNum.lt a b then b else a

/-- The rational value of a `JsNum`. -/
def JsNum.val (a : JsNum) : ℚ := (a.num : ℚ) / (a.den : ℚ)

theorem JsNum.den_ne (a : JsNum) : (a.den : ℚ) ≠ 0 := by
  exact_mod_cast Int.ne_of_gt a.den_pos

theorem JsNum.den_posQ (a : JsNum) : (0 : ℚ) < (a.den : ℚ) := by
  exact_mod_cast a.den_pos

theorem JsNum.val_ofNat (n : Nat) : (JsNum.ofNat n).val = n := by
  simp [JsNum.val, JsNum.ofNat]

theorem JsNum.val_ofInt (n : Int) : (JsNum.ofInt n).val = n := by
  simp [JsNum.val, JsNum.ofInt]

theorem JsNum.val_add (a b : JsNum) : (a.add b).val = a.val + b.val := by
  simp only [JsNum.val, JsNum.add]
  rw [div_add_div _ _ a.den_ne b.den_ne]
  push_cast
  ring_nf

theorem JsNum.val_sub (a b : JsNum) : (a.sub b).val = a.val - b.val := by
  simp only [JsNum.val, JsNum.sub]
  rw [div_sub_div _ _ a.den_ne b.den_ne]
  push_cast
  ring_nf

theorem JsNum.val_mul (a b : JsNum) : (a.mul b).val = a.val * b.val := by
  simp only [JsNum.val, JsNum.mul]
  push_cast
  rw [div_mul_div_comm]

theorem JsNum.le_iff (a b : JsNum) : a.le b = true ↔ a.val ≤ b.val := by
  simp only [JsNum.le, JsNum.val, decide_eq_true_eq]
  rw [div_le_div_iff₀ a.den_posQ b.den_posQ]
  constructor
  · intro h; exact_mod_cast h
  · intro h; exact_mod_cast h

theorem JsNum.lt_iff (a b : JsNum) : a.lt b = true ↔ a.val < b.val := by
  simp only [JsNum.lt, JsNum.val, decide_eq_true_eq]
  rw [div_lt_div_iff₀ a.den_posQ b.den_posQ]
  constructor
  · intro h; exact_mod_cast h
  · intro h; exact_mod_cast h

theorem JsNum.eqv_iff (a b : JsNum) : a.eqv b = true ↔ a.val = b.val := by
  simp only [JsNum.eqv, JsNum.val, decide_eq_true_eq]
  rw [div_eq_div_iff a.den_ne b.den_ne]
  constructor
  · intro h; exact_mod_cast h
  · intro h; exact_mod_cast h

theorem jsMin_val (a b : JsNum) : (jsMin a b).val = min a.val b.val := by
  unfold jsMin
  rcases hbq : b.lt a with _ | _
  · have : ¬ b.val < a.val := by
      intro hc
      rw [← JsNum.lt_iff] at hc
      simp [hbq] at hc
    simp [min_eq_left (le_of_not_lt this)]
  · have : b.val < a.val := (JsNum.lt_iff b a).mp hbq
    simp [min_eq_right (le_of_lt this)]

theorem jsMax_val (a b : JsNum) : (jsMax a b).val = max a.val b.val := by
  unfold jsMax
  rcases hbq : a.lt b with _ | _
  · have : ¬ a.val < b.val := by
      intro hc
      rw [← JsNum.lt_iff] at hc
      simp [hbq] at hc
    simp [max_eq_left (le_of_not_lt this)]
  · have : a.val < b.val := (JsNum.lt_iff a b).mp hbq
    simp [max_eq_right (le_of_lt this)]

/-! ## Data model (`src/models/webdav-search.ts`) -/

/-- `FileMetadata`; `lastModified` is the `Date` as milliseconds since the
epoch. -/
structure FileMetadataM where
  path : String
  name : String
  size : Nat
  lastModified : Int
  mimeType : String
  extension : String
  isDirectory : Bool
  depth : Nat
deriving DecidableEq

inductive MatchTypeM where
  | filename
  | content
  | metadata
deriving DecidableEq

/-- `SearchResult`.  `context` is always assigned by the engine, so it is kept
total here; `contentPreview` stays optional exactly as in the interface. -/
structure SearchResultM where
  file : FileMetadataM
  matchType : MatchTypeM
  relevanceScore : JsNum
  contentPreview : Option String
  highlights : List String
  context : String
deriving DecidableEq

structure SizeRangeM where
  min : Option Nat
  max : Option Nat
deriving DecidableEq

/-- `dateRange`; the TS field names are `from`/`to` (`from` is a Lean
keyword). -/
structure DateRangeM where
  dateFrom : Option Int
  dateTo : Option Int
deriving DecidableEq

/-- `SearchOptions`.  Optional fields are `Option` so that JS `undefined` is
representable (it matters for truthiness tests and for `JSON.stringify`
omitting `undefined` members of the cache key). -/
structure SearchOptionsM where
  query : String
  searchIn : List String
  fileTypes : Option (List String)
  sizeRange : Option SizeRangeM
  dateRange : Option DateRangeM
  basePath : Option String
  limit : Option Nat
  includeContent : Option Bool
  caseSensitive : Option Bool
deriving DecidableEq

structure FileIndexM where
  basePath : String
  lastUpdated : Int
  files : List FileMetadataM
  totalSize : Nat
  directoryCount : Nat
  fileCount : Nat

inductive SupportedFileTypes where
  | TEXT
  | DOCUMENT
  | CODE
  | CONFIG
  | MEDIA
deriving DecidableEq

structure SearchConfig where
  indexTTL : Int
  contentTTL : Int
  maxIndexSize : Nat
  maxContentSize : Nat
  maxFileSize : Nat
  maxDepth : Nat

def DEFAULT_SEARCH_CONFIG : SearchConfig :=
  { indexTTL := 15 * 60 * 1000
    contentTTL := 5 * 60 * 1000
    maxIndexSize := 10000
    maxContentSize := 100 * 1024 * 1024
    maxFileSize := 10 * 1024 * 1024
    maxDepth := 10 }

/-- `FILE_TYPE_MAPPINGS` as a lookup function (`Record` access returns
`undefined` for missing keys). -/
def FILE_TYPE_MAPPINGS (ext : String) : Option SupportedFileTypes :=
  if ext ∈ ["txt", "md", "markdown", "csv", "tsv", "log"] then
    some SupportedFileTypes.TEXT
  else if ext ∈ ["js", "ts", "jsx", "tsx", "py", "java", "c", "cpp", "h", "cs",
      "php", "rb", "go", "rs", "swift", "kt", "sql", "html", "htm", "css",
      "scss", "sass", "less"] then
    some SupportedFileTypes.CODE
  else if ext ∈ ["json", "xml", "yaml", "yml", "toml", "ini", "conf", "config",
      "properties", "env"] then
    some SupportedFileTypes.CONFIG
  else if ext ∈ ["pdf", "doc", "docx", "xls", "xlsx", "ppt", "pptx", "odt",
      "ods", "odp"] then
    some SupportedFileTypes.DOCUMENT
  else if ext ∈ ["jpg", "jpeg", "png", "gif", "bmp", "svg", "webp", "mp4",
      "avi", "mov", "mkv", "wmv", "mp3", "wav", "flac", "aac", "ogg"] then
    some SupportedFileTypes.MEDIA
  else none

/-- `MIME_TYPE_MAPPINGS` as a lookup function. -/
def MIME_TYPE_MAPPINGS (mime : String) : Option SupportedFileTypes :=
  if mime ∈ ["text/plain", "text/markdown", "text/csv"] then
    some SupportedFileTypes.TEXT
  else if mime ∈ ["text/javascript", "application/javascript", "text/html",
      "text/css", "text/x-python", "text/x-java-source", "text/x-c",
      "text/x-c++"] then
    some SupportedFileTypes.CODE
  else if mime ∈ ["application/json", "text/xml", "application/xml",
      "text/yaml", "application/x-yaml"] then
    some SupportedFileTypes.CONFIG
  else if mime ∈ ["application/pdf", "application/msword",
      "application/vnd.openxmlformats-officedocument.wordprocessingml.document",
      "application/vnd.ms-excel",
      "application/vnd.openxmlformats-officedocument.spreadsheetml.sheet"] then
    some SupportedFileTypes.DOCUMENT
  else if mime ∈ ["image/jpeg", "image/png", "image/gif", "image/svg+xml",
      "video/mp4", "video/avi", "audio/mpeg", "audio/wav"] then
    some SupportedFileTypes.MEDIA
  else none

/-! ## Calendar arithmetic for `Date#toISOString` / `getFullYear`

`extractMetadataAsText` prints the ISO date (`YYYY-MM-DD`) and the year of
`lastModified`.  The conversion from days since the epoch to a civil date is
the standard truncating-division algorithm; the model assumes a UTC runtime
(so `getFullYear` agrees with the UTC year). -/

def civilFromDays (z0 : Int) : Int × Nat × Nat :=
  let z := z0 + 719468
  let era := (if 0 ≤ z then z else z - 146096).tdiv 146097
  let doe := z - era * 146097
  let yoe := (doe - doe.tdiv 1460 + doe.tdiv 36524 - doe.tdiv 146096).tdiv 365
  let y := yoe + era * 400
  let doy := doe - (365 * yoe + yoe.tdiv 4 - yoe.tdiv 100)
  let mp := (5 * doy + 2).tdiv 153
  let d := doy - (153 * mp + 2).tdiv 5 + 1
  let m := mp + (if mp < 10 then 3 else -9)
  (y + (if m ≤ 2 then 1 else 0), m.toNat, d.toNat)

def pad2 (n : Nat) : String := if n < 10 then "0" ++ toString n else toString n

def pad4 (n : Nat) : String :=
  if n < 10 then "000" ++ toString n
  else if n < 100 then "00" ++ toString n
  else if n < 1000 then "0" ++ toString n
  else toString n

/-- The `YYYY-MM-DD` part of `new Date(ms).toISOString()` (non-negative years
only, which covers every date the model is evaluated at). -/
def isoDatePart (ms : Int) : String :=
  let days := ms.fdiv 86400000
  let (y, m, d) := civilFromDays days
  pad4 y.toNat ++ "-" ++ pad2 m ++ "-" ++ pad2 d

/-- `new Date(ms).getFullYear()` under a UTC runtime. -/
def getFullYear (ms : Int) : Int := (civilFromDays (ms.fdiv 86400000)).1

/-! ## The remote-store / indexer boundary -/

/-- One raw entry of a WebDAV directory listing, as consumed by
`SearchEngine.parseDirectoryContents`.  Every field the JS code probes on the
untyped `item` is optional. -/
structure DirEntryM where
  path : Option String
  href : Option String
  name : Option String
  size : Option Nat
  lastModified : Option Int
  mimeType : Option String
  contentType : Option String
  isDirectory : Option Bool
deriving DecidableEq

/-- The engine's collaborators: `FileIndexer.getIndex` (whose wall-clock
timeout racing and 3-way concurrent recursion are abstracted behind the
`Except` result) and the WebDAV client primitives.  `Except.error` models a
rejected promise carrying the error's `message`. -/
structure StoreOracle where
  getIndex : String → Bool → Except String FileIndexM
  listDirectory : String → Except String (List DirEntryM)
  readFile : String → Except String String

/-! ## `ContentExtractor` (`src/utils/content-extractor.ts`) -/

structure ContentCacheEntry where
  content : String
  timestamp : Int
  size : Nat
deriving DecidableEq

/-- The extractor's mutable state: the cache map (insertion-ordered) and the
running `totalCacheSize`. -/
structure ContentCacheState where
  entries : List (String × ContentCacheEntry)
  totalCacheSize : Int
deriving DecidableEq

def assocFind (m : List (String × α)) (k : String) : Option α :=
  match m with
  | [] => none
  | (k', v) :: rest => if k' = k then some v else assocFind rest k

def assocSet (m : List (String × α)) (k : String) (v : α) : List (String × α) :=
  match m with
  | [] => [(k, v)]
  | (k', v') :: rest =>
    if k' = k then (k', v) :: rest else (k', v') :: assocSet rest k v

def assocErase (m : List (String × α)) (k : String) : List (String × α) :=
  m.filter (fun e => e.1 ≠ k)

/-- `getMimeTypeDescription`. -/
def getMimeTypeDescription (mimeType : String) : String :=
  let descriptions : List (String × String) :=
    [("text/plain", "text file"), ("text/markdown", "markdown document"),
     ("text/csv", "spreadsheet data"), ("application/json", "json data"),
     ("text/xml", "xml document"), ("application/xml", "xml document"),
     ("text/html", "web page"), ("text/css", "stylesheet"),
     ("application/javascript", "javascript code"),
     ("text/javascript", "javascript code"), ("application/pdf", "pdf document"),
     ("image/jpeg", "jpeg image"), ("image/png", "png image"),
     ("video/mp4", "mp4 video"), ("audio/mpeg", "mp3 audio")]
  match assocFind descriptions mimeType with
  | some d => d
  | none => jsOrS ((splitChar '/' mimeType).head?) "file"

/-- `getSizeCategory`. -/
def getSizeCategory (size : Nat) : String :=
  if size = 0 then "empty"
  else if size < 1024 then "tiny"
  else if size < 10 * 1024 then "small"
  else if size < 100 * 1024 then "medium"
  else if size < 1024 * 1024 then "large"
  else if size < 10 * 1024 * 1024 then "very large"
  else "huge"

/-- `file.name.replace(new RegExp(`\\.${file.extension}$`), '')`: drop the
literal suffix `"." ++ extension` when present. -/
def stripExtSuffix (name ext : String) : String :=
  if strEndsWith name ("." ++ ext) then
    String.mk (name.data.take (name.length - (ext.length + 1)))
  else name

/-- `ContentExtractor.extractMetadataAsText`. -/
def extractMetadataAsText (file : FileMetadataM) : String :=
  let metadata : List String :=
    [stripExtSuffix file.name file.extension] ++
    (if file.extension ≠ "" then [file.extension] else []) ++
    [getMimeTypeDescription file.mimeType, getSizeCategory file.size,
     isoDatePart file.lastModified, toString (getFullYear file.lastModified)] ++
    (splitChar '/' file.path).filter (fun part => part.length > 0)
  joinSep " " metadata

/-- `ContentExtractor.cleanTextContent`: collapse whitespace runs, then strip
control characters, then truncate to 100,000 characters, then trim — in that
source order. -/
def cleanTextContent (content : String) : String :=
  String.mk
    (jsTrim ((((collapseWs content.data).filter (fun c => !isStrippedCtrl c)).take 100000)))

/-- `ContentExtractor.getFileType`: MIME mapping first, then extension
mapping, then the `text/` prefix default, then DOCUMENT. -/
def getFileType (mimeType extension : String) : SupportedFileTypes :=
  match (if mimeType ≠ "" then MIME_TYPE_MAPPINGS mimeType else none) with
  | some t => t
  | none =>
    match (if extension ≠ "" then FILE_TYPE_MAPPINGS extension else none) with
    | some t => t
    | none =>
      if mimeType ≠ "" && strStartsWith mimeType "text/" then
        SupportedFileTypes.TEXT
      else SupportedFileTypes.DOCUMENT

/-- `ContentExtractor.isSearchableContent`. -/
def isSearchableContent (file : FileMetadataM) : Bool :=
  let fileType := getFileType file.mimeType file.extension
  fileType = SupportedFileTypes.TEXT || fileType = SupportedFileTypes.CODE ||
    fileType = SupportedFileTypes.CONFIG

/-- `ContentExtractor.isCacheValid` (content cache: age is compared with the
content TTL only; the file's modification time is never consulted). -/
def contentCacheValid (cfg : SearchConfig) (now : Int) (cached : ContentCacheEntry) : Bool :=
  decide (¬ (now - cached.timestamp > cfg.contentTTL))

/-- `ContentExtractor.evictOldestCacheEntry`: find the first entry whose
timestamp is strictly below the running minimum (initialised to `Date.now()`)
and delete it. -/
def evictOldestCacheEntry (now : Int) (st : ContentCacheState) : ContentCacheState :=
  let oldest := st.entries.foldl
    (fun acc e => if e.2.timestamp < acc.2 then (some e.1, e.2.timestamp) else acc)
    ((none : Option String), now)
  match oldest.1 with
  | none => st
  | some key =>
    match assocFind st.entries key with
    | none => st
    | some entry =>
      { entries := assocErase st.entries key
        totalCacheSize := st.totalCacheSize - entry.size }

/-- The `while` loop of `cacheContent` (fuel-driven; the fuel is the number of
cache entries, which bounds the number of successful evictions — if an
eviction pass removes nothing the JS loop would not terminate either). -/
def makeSpaceGo (cfg : SearchConfig) (now : Int) (contentSize : Nat) :
    Nat → ContentCacheState → ContentCacheState
  | 0, st => st
  | fuel + 1, st =>
    if st.totalCacheSize + contentSize > (cfg.maxContentSize : Int) ∧ st.entries.length > 0 then
      makeSpaceGo cfg now contentSize fuel (evictOldestCacheEntry now st)
    else st

/-- `ContentExtractor.cacheContent`. -/
def cacheContent (cfg : SearchConfig) (now : Int) (st : ContentCacheState)
    (key content : String) : ContentCacheState :=
  let contentSize := content.utf8ByteSize
  let st := makeSpaceGo cfg now contentSize (st.entries.length + 1) st
  if contentSize > cfg.maxContentSize / 10 then st
  else
    { entries := assocSet st.entries key ⟨content, now, contentSize⟩
      totalCacheSize := st.totalCacheSize + contentSize }

/-- The outcome of `extractContent`: the text, and the paths on which a raw
`readFile` was attempted (empty when no raw read happened). -/
structure ExtractOut where
  content : String
  reads : List String
deriving DecidableEq

/-- `ContentExtractor.extractContent`: cache probe, size guard, type dispatch,
raw read with cleaning for extractable types, metadata text otherwise; a read
failure degrades to metadata text (and is not cached). -/
def extractContent (oracle : StoreOracle) (cfg : SearchConfig) (now : Int)
    (st : ContentCacheState) (file : FileMetadataM) : ExtractOut × ContentCacheState :=
  match assocFind st.entries file.path with
  | some cached =>
    if contentCacheValid cfg now cached then (⟨cached.content, []⟩, st)
    else extractContentBody oracle cfg now st file
  | none => extractContentBody oracle cfg now st file
where
  extractContentBody (oracle : StoreOracle) (cfg : SearchConfig) (now : Int)
      (st : ContentCacheState) (file : FileMetadataM) : ExtractOut × ContentCacheState :=
    if file.size > cfg.maxFileSize then (⟨extractMetadataAsText file, []⟩, st)
    else
      match getFileType file.mimeType file.extension with
      | SupportedFileTypes.TEXT | SupportedFileTypes.CODE | SupportedFileTypes.CONFIG =>
        (match oracle.readFile file.path with
         | Except.ok raw =>
           let content := cleanTextContent raw
           (⟨content, [file.path]⟩, cacheContent cfg now st file.path content)
         | Except.error _ => (⟨extractMetadataAsText file, [file.path]⟩, st))
      | _ =>
        let content := extractMetadataAsText file
        (⟨content, []⟩, cacheContent cfg now st file.path content)

/-- `ContentExtractor.getContentPreview` (first `maxLines` lines of the
extracted content). -/
def getContentPreview (oracle : StoreOracle) (cfg : SearchConfig) (now : Int)
    (st : ContentCacheState) (file : FileMetadataM) (maxLines : Nat) :
    String × ContentCacheState :=
  let (out, st') := extractContent oracle cfg now st file
  (joinSep "\n" ((splitChar '\n' out.content).take maxLines), st')

/-! ## `ContentAnalyzer.findContext` -/

/-- The `while` loop of `findContext`; at most 5 contexts are collected, so 5
units of fuel suffice. -/
def findContextGo (content lowerContent lowerTerm : List Char) (contextSize : Nat) :
    Nat → Nat → List String → List String
  | 0, _, contexts => contexts
  | fuel + 1, index, contexts =>
    match jsIndexOfFrom lowerContent lowerTerm index with
    | none => contexts
    | some i =>
      let start := i - contextSize
      let stop := min content.length (i + lowerTerm.length + contextSize)
      let contexts := contexts ++ [String.mk (jsTrim ((content.drop start).take (stop - start)))]
      if contexts.length ≥ 5 then contexts
      else findContextGo content lowerContent lowerTerm contextSize fuel
        (i + lowerTerm.length) contexts

/-- `ContentAnalyzer.findContext` (default `contextSize` 50). -/
def findContext (content searchTerm : String) (contextSize : Nat := 50) : List String :=
  findContextGo content.data (lc content).data (lc searchTerm).data contextSize 5 0 []

/-! ## `SearchEngine` (`src/utils/content-extractor.ts`) -/

/-- The engine's own stop-word list (`SearchEngine.isStopWord`). -/
def engineStopWords : List String :=
  ["the", "a", "an", "and", "or", "but", "in", "on", "at", "to", "for",
   "of", "with", "by", "is", "are", "was", "were", "be", "been", "have",
   "has", "had", "do", "does", "did", "will", "would", "could", "should",
   "this", "that", "these", "those"]

def isStopWord (word : String) : Bool := engineStopWords.contains (lc word)

structure ParsedQueryM where
  terms : List String
  originalQuery : String
deriving DecidableEq

/-- `SearchEngine.parseQuery`: lowercase, replace `[^\w\s]` by spaces, split
on whitespace, drop empties and stop words.  (`operators` and `filters` are
always empty in the source and are omitted.) -/
def parseQuery (query : String) : ParsedQueryM :=
  { terms :=
      (((wordTokens (lc query).data).map String.mk).filter
        (fun term => term.length > 0)).filter (fun term => !isStopWord term)
    originalQuery := query }

/-- The loop body of `calculateFilenameRelevance` (one search term). -/
def filenameScoreStep (lowerFilename : String) (score : JsNum) (term : String) : JsNum :=
  let lowerTerm := lc term
  if lowerFilename = lowerTerm then score.add (JsNum.ofNat 100)
  else if strContains lowerFilename (" " ++ lowerTerm ++ " ") ||
      strStartsWith lowerFilename (lowerTerm ++ " ") ||
      strEndsWith lowerFilename (" " ++ lowerTerm) then
    score.add (JsNum.ofNat 80)
  else if strContains lowerFilename lowerTerm then
    let index := (idxOfInfix lowerTerm.data lowerFilename.data).getD 0
    let positionBonus := jsMax (JsNum.ofNat 0)
      ((JsNum.ofNat 20).sub
        (((JsNum.ofNat index).div (JsNum.ofNat lowerFilename.length)).mul (JsNum.ofNat 20)))
    score.add ((JsNum.ofNat 60).add positionBonus)
  else score

/-- `SearchEngine.calculateFilenameRelevance`. -/
def calculateFilenameRelevance (filename : String) (searchTerms : List String) : JsNum :=
  jsMin (JsNum.ofNat 100)
    (searchTerms.foldl (filenameScoreStep (lc filename)) (JsNum.ofNat 0))

/-- The loop body of `calculateContentRelevance` (occurrence scoring of one
term, `min(50, matches*10)`). -/
def contentScoreStep (lowerContent : String) (score : JsNum) (term : String) : JsNum :=
  let occ := countMatches (lc term).data lowerContent.data
  if occ > 0 then score.add (jsMin (JsNum.ofNat 50) (JsNum.ofNat (occ * 10)))
  else score

/-- The multi-term bonus of `calculateContentRelevance`
(`(uniqueMatches / terms.length) * 30`). -/
def contentMultiTermBonus (lowerContent : String) (searchTerms : List String)
    (score : JsNum) : JsNum :=
  if searchTerms.length > 1 then
    score.add
      (((JsNum.ofNat
          ((searchTerms.filter (fun term => strContains lowerContent (lc term))).length)).div
        (JsNum.ofNat searchTerms.length)).mul (JsNum.ofNat 30))
  else score

/-- `SearchEngine.calculateContentRelevance`. -/
def calculateContentRelevance (content : String) (searchTerms : List String) : JsNum :=
  jsMin (JsNum.ofNat 100)
    (contentMultiTermBonus (lc content) searchTerms
      (searchTerms.foldl (contentScoreStep (lc content)) (JsNum.ofNat 0)))

/-- `SearchEngine.findHighlights`. -/
def findHighlights (text : String) (searchTerms : List String) : List String :=
  let lowerText := lc text
  jsDedup (searchTerms.filterMap (fun term =>
    let lowerTerm := lc term
    if strContains lowerText lowerTerm then
      match idxOfInfix lowerTerm.data lowerText.data with
      | some index => some (jsSubstring text index (index + term.length))
      | none => none
    else none))

/-- `SearchEngine.searchFilenames`. -/
def searchFilenames (terms : List String) (files : List FileMetadataM) : List SearchResultM :=
  files.filterMap (fun file =>
    let relevance := calculateFilenameRelevance file.name terms
    if JsNum.lt (JsNum.ofNat 0) relevance then
      some { file := file, matchType := MatchTypeM.filename, relevanceScore := relevance,
             contentPreview := none, highlights := findHighlights file.name terms,
             context := file.name }
    else none)

/-- `SearchEngine.searchMetadata` (the relevance of the synthesized metadata
text, scaled by 0.7). -/
def searchMetadata (terms : List String) (files : List FileMetadataM) : List SearchResultM :=
  files.filterMap (fun file =>
    let metadataText := extractMetadataAsText file
    let relevance := calculateContentRelevance metadataText terms
    if JsNum.lt (JsNum.ofNat 0) relevance then
      some { file := file, matchType := MatchTypeM.metadata,
             relevanceScore := relevance.mul ⟨7, 10, by omega⟩,
             contentPreview := none, highlights := findHighlights metadataText terms,
             context := jsSubstring metadataText 0 200 }
    else none)

/-- `SearchEngine.searchContent`.  The JS batches of 10 concurrent
extractions preserve both result order (`Promise.all`) and, per file, the
extraction performed; the model threads the content cache sequentially. -/
def searchContentGo (oracle : StoreOracle) (cfg : SearchConfig) (now : Int)
    (terms : List String) :
    List FileMetadataM → ContentCacheState → List SearchResultM × ContentCacheState
  | [], st => ([], st)
  | file :: rest, st =>
    let (out, st') := extractContent oracle cfg now st file
    let relevance := calculateContentRelevance out.content terms
    let (results, st'') := searchContentGo oracle cfg now terms rest st'
    if JsNum.lt (JsNum.ofNat 0) relevance then
      ({ file := file, matchType := MatchTypeM.content, relevanceScore := relevance,
         contentPreview := none, highlights := findHighlights out.content terms,
         context := jsOrS (some (jsOrS (findContext out.content (joinSep " " terms) 50).head? ""))
           (jsSubstring out.content 0 200) } :: results, st'')
    else (results, st'')

def searchContent (oracle : StoreOracle) (cfg : SearchConfig) (now : Int)
    (terms : List String) (files : List FileMetadataM) (st : ContentCacheState) :
    List SearchResultM × ContentCacheState :=
  searchContentGo oracle cfg now terms
    (files.filter (fun file => isSearchableContent file && file.size ≤ cfg.maxFileSize)) st

/-- `SearchEngine.applyPreFilters` (JS truthiness: a `min`/`max` bound of `0`
is falsy and disables that bound). -/
def applyPreFilters (files : List FileMetadataM) (opts : SearchOptionsM) :
    List FileMetadataM :=
  files.filter (fun file =>
    (match opts.fileTypes with
     | some fileTypes =>
       if fileTypes.length > 0 then fileTypes.contains file.extension else true
     | none => true) &&
    (match opts.sizeRange with
     | some sizeRange =>
       (match sizeRange.min with
        | some m => !(decide (m ≠ 0) && decide (file.size < m))
        | none => true) &&
       (match sizeRange.max with
        | some m => !(decide (m ≠ 0) && decide (file.size > m))
        | none => true)
     | none => true) &&
    (match opts.dateRange with
     | some dateRange =>
       (match dateRange.dateFrom with
        | some f => !decide (file.lastModified < f)
        | none => true) &&
       (match dateRange.dateTo with
        | some t => !decide (file.lastModified > t)
        | none => true)
     | none => true))

/-- `SearchEngine.applyPostFilters` (the case-sensitivity filter splits the
raw query on whitespace, keeping empty edge fields). -/
def applyPostFilters (results : List SearchResultM) (opts : SearchOptionsM) :
    List SearchResultM :=
  results.filter (fun result =>
    if opts.caseSensitive = some true then
      result.highlights.any (fun highlight =>
        (jsSplitWs opts.query).any (fun term => strContains highlight term))
    else true)

/-- One `Map.set` step of `SearchEngine.mergeResults`: a new path is appended;
an existing path is replaced (in place) only when the new match scores
strictly higher, in which case the highlight lists are unioned. -/
def mergeStep (merged : List (String × SearchResultM)) (result : SearchResultM) :
    List (String × SearchResultM) :=
  match assocFind merged result.file.path with
  | none => merged ++ [(result.file.path, result)]
  | some existing =>
    if JsNum.lt existing.relevanceScore result.relevanceScore then
      assocSet merged result.file.path
        { result with highlights := jsDedup (existing.highlights ++ result.highlights) }
    else merged

/-- `SearchEngine.mergeResults`. -/
def mergeResults (results : List SearchResultM) : List SearchResultM :=
  (results.foldl mergeStep []).map Prod.snd

/-- `SearchEngine.calculateFinalScore`. -/
def calculateFinalScore (now : Int) (result : SearchResultM) : JsNum :=
  let score := result.relevanceScore
  let daysSinceModified :=
    (JsNum.ofInt (now - result.file.lastModified)).div (JsNum.ofNat (1000 * 60 * 60 * 24))
  let score :=
    if JsNum.le daysSinceModified (JsNum.ofNat 30) then
      score.add (jsMax (JsNum.ofNat 0)
        ((JsNum.ofNat 10).sub ((daysSinceModified.div (JsNum.ofNat 30)).mul (JsNum.ofNat 10))))
    else score
  let score := if result.file.size < 100 * 1024 then score.add (JsNum.ofNat 5) else score
  let preferredExtensions := ["txt", "md", "json", "js", "ts", "py"]
  let score :=
    if preferredExtensions.contains result.file.extension then score.add (JsNum.ofNat 3)
    else score
  jsMin (JsNum.ofNat 100) score

def matchTypePriority : MatchTypeM → Nat
  | MatchTypeM.filename => 3
  | MatchTypeM.content => 2
  | MatchTypeM.metadata => 1

/-- The `rankResults` sort comparator, as a `≤`-style relation: `a` may come
before `b` iff `comparator(a, b) ≤ 0`. -/
def resultLe (a b : SearchResultM) : Bool :=
  if !(a.relevanceScore.eqv b.relevanceScore) then b.relevanceScore.le a.relevanceScore
  else if matchTypePriority b.matchType ≠ matchTypePriority a.matchType then
    decide (matchTypePriority b.matchType ≤ matchTypePriority a.matchType)
  else strLe a.file.name b.file.name

/-- `SearchEngine.rankResults`: recompute scores with the ranking bonuses,
then stable-sort by descending score, then match-type priority, then name. -/
def rankResults (now : Int) (results : List SearchResultM) : List SearchResultM :=
  List.insertionSort (fun a b => resultLe a b = true)
    (results.map (fun result =>
      { result with relevanceScore := calculateFinalScore now result }))

/-- `SearchEngine.parseDirectoryContents` (the `Array.isArray(contents)`
branch; the JS truthiness fallbacks for each field are modelled by `jsOrS` /
`jsOrN`, and a missing `name` interpolates as the string "undefined" exactly
as a template literal does).  `new Date()` for a missing or falsy
`lastModified` is the current time `now`. -/
def parseDirectoryContents (now : Int) (items : List DirEntryM) (basePath : String) :
    List FileMetadataM :=
  items.map (fun item =>
    let path := jsOrS item.path
      (jsOrS item.href (basePath ++ "/" ++ item.name.getD "undefined"))
    let name := jsOrS item.name (jsOrS ((splitChar '/' path).getLast?) "")
    let extension :=
      if strContains name "." then
        match (splitChar '.' name).getLast? with
        | some e => lc e
        | none => ""
      else ""
    { path := path, name := name, size := item.size.getD 0
      lastModified :=
        (match item.lastModified with
         | some t => if t = 0 then now else t
         | none => now)
      mimeType := jsOrS item.mimeType (jsOrS item.contentType "application/octet-stream")
      extension := extension
      isDirectory := item.isDirectory.getD false
      depth := 0 })

/-- `SearchEngine.performFallbackSearch`: list only the immediate directory,
search filenames/metadata, merge, filter, rank, truncate to
`options.limit || 20`; any failure yields `[]`. -/
def performFallbackSearch (oracle : StoreOracle) (now : Int) (opts : SearchOptionsM)
    (parsedQuery : ParsedQueryM) : List SearchResultM :=
  match oracle.listDirectory (jsOrS opts.basePath "/") with
  | Except.error _ => []
  | Except.ok directoryContents =>
    let files := parseDirectoryContents now directoryContents (jsOrS opts.basePath "/")
    let filteredFiles := applyPreFilters files opts
    let results :=
      (if opts.searchIn.contains "filename" then
        searchFilenames parsedQuery.terms filteredFiles
      else []) ++
      (if opts.searchIn.contains "metadata" then
        searchMetadata parsedQuery.terms filteredFiles
      else [])
    let mergedResults := mergeResults results
    let filteredResults := applyPostFilters mergedResults opts
    let rankedResults := rankResults now filteredResults
    rankedResults.take (jsOrN opts.limit 20)

/-! ## Result cache and the `search` entry point -/

/-- The distinctions `JSON.stringify` keeps in `getCacheKey`'s object: the
lowercased query, the two arrays as sorted by `.sort()`, `basePath` and
`caseSensitive` (an `undefined` member is omitted from the JSON text, so
`none` stays distinguishable from every present value). -/
structure CacheKeyM where
  query : String
  searchIn : List String
  fileTypes : Option (List String)
  basePath : Option String
  caseSensitive : Option Bool
deriving DecidableEq

/-- `SearchEngine.getCacheKey`.  `options.searchIn.sort()` and
`options.fileTypes?.sort()` sort the caller's arrays *in place*, so the
function returns both the key and the thereby-mutated options. -/
def getCacheKey (opts : SearchOptionsM) : CacheKeyM × SearchOptionsM :=
  let sortedSearchIn := jsSortStrs opts.searchIn
  let sortedFileTypes := opts.fileTypes.map jsSortStrs
  (⟨lc opts.query, sortedSearchIn, sortedFileTypes, opts.basePath, opts.caseSensitive⟩,
   { opts with searchIn := sortedSearchIn, fileTypes := sortedFileTypes })

structure ResultCacheEntry where
  results : List SearchResultM
  timestamp : Int
deriving DecidableEq

/-- `SearchEngine.isCacheValid` (result cache, 1-minute TTL). -/
def resultCacheValid (now : Int) (cached : ResultCacheEntry) : Bool :=
  decide (now - cached.timestamp < 60000)

def assocFindK [DecidableEq κ] (m : List (κ × α)) (k : κ) : Option α :=
  match m with
  | [] => none
  | (k', v) :: rest => if k' = k then some v else assocFindK rest k

def assocSetK [DecidableEq κ] (m : List (κ × α)) (k : κ) (v : α) : List (κ × α) :=
  match m with
  | [] => [(k, v)]
  | (k', v') :: rest =>
    if k' = k then (k', v) :: rest else (k', v') :: assocSetK rest k v

/-- `SearchEngine.cacheResults`: store under the key, then, if more than 100
entries are held, delete the first key in iteration order. -/
def cacheResults (cache : List (CacheKeyM × ResultCacheEntry)) (key : CacheKeyM)
    (results : List SearchResultM) (now : Int) : List (CacheKeyM × ResultCacheEntry) :=
  let cache := assocSetK cache key ⟨results, now⟩
  if cache.length > 100 then
    match cache.head? with
    | some e => cache.filter (fun entry => entry.1 ≠ e.1)
    | none => cache
  else cache

/-- `SearchEngine.addContentPreviews`: attach a 3-line preview to filename and
content matches (threading the content cache). -/
def addContentPreviews (oracle : StoreOracle) (cfg : SearchConfig) (now : Int) :
    List SearchResultM → ContentCacheState → List SearchResultM × ContentCacheState
  | [], st => ([], st)
  | result :: rest, st =>
    let (result', st') :=
      if result.matchType = MatchTypeM.content ∨ result.matchType = MatchTypeM.filename then
        let (preview, st') := getContentPreview oracle cfg now st result.file 3
        ({ result with contentPreview := some preview }, st')
      else (result, st)
    let (rest', st'') := addContentPreviews oracle cfg now rest st'
    (result' :: rest', st'')

/-- `options.basePath === '/' || !options.basePath` (empty string is falsy). -/
def useQuickMode (basePath : Option String) : Bool :=
  basePath = some "/" || basePath = none || basePath = some ""

structure EngineState where
  resultCache : List (CacheKeyM × ResultCacheEntry)
  contentCache : ContentCacheState
deriving DecidableEq

/-- What a `search` call produces: the resolved result list or the rejected
error message, the (possibly mutated) options object, and the engine state
after the call. -/
structure SearchOutcome where
  result : Except String (List SearchResultM)
  options : SearchOptionsM
  state : EngineState

/-- The indexed part of `SearchEngine.search` (everything inside the `try`
after the cache probe) together with the `catch`: a timeout- or index-shaped
failure message triggers the fallback search, any other failure is rethrown
as `Search failed: …`. -/
def searchCore (oracle : StoreOracle) (cfg : SearchConfig) (now : Int)
    (opts : SearchOptionsM) (parsedQuery : ParsedQueryM) (cacheKey : CacheKeyM)
    (st : EngineState) : SearchOutcome :=
  match oracle.getIndex (jsOrS opts.basePath "/") (useQuickMode opts.basePath) with
  | Except.error e =>
    if strContains e "timeout" || strContains e "index" then
      ⟨Except.ok (performFallbackSearch oracle now opts parsedQuery), opts, st⟩
    else ⟨Except.error ("Search failed: " ++ e), opts, st⟩
  | Except.ok index =>
    let filteredFiles := applyPreFilters index.files opts
    let filenameResults :=
      if opts.searchIn.contains "filename" then
        searchFilenames parsedQuery.terms filteredFiles
      else []
    let metadataResults :=
      if opts.searchIn.contains "metadata" then
        searchMetadata parsedQuery.terms filteredFiles
      else []
    let (contentResults, cc1) :=
      if opts.searchIn.contains "content" then
        searchContent oracle cfg now parsedQuery.terms filteredFiles st.contentCache
      else ([], st.contentCache)
    let allResults := filenameResults ++ metadataResults ++ contentResults
    let mergedResults := mergeResults allResults
    let filteredResults := applyPostFilters mergedResults opts
    let rankedResults := rankResults now filteredResults
    let finalResults := rankedResults.take (jsOrN opts.limit 50)
    let (finalResults, cc2) :=
      if opts.includeContent = some true then
        addContentPreviews oracle cfg now finalResults cc1
      else (finalResults, cc1)
    ⟨Except.ok finalResults, opts,
     { resultCache := cacheResults st.resultCache cacheKey finalResults now
       contentCache := cc2 }⟩

/-- `SearchEngine.search`: parse (an empty term list returns `[]` at once),
compute the cache key (mutating the options), probe the result cache, and
otherwise run the indexed search with its fallback handling. -/
def search (oracle : StoreOracle) (cfg : SearchConfig) (now : Int)
    (opts : SearchOptionsM) (st : EngineState) : SearchOutcome :=
  let parsedQuery := parseQuery opts.query
  if parsedQuery.terms.length = 0 then ⟨Except.ok [], opts, st⟩
  else
    let (cacheKey, opts') := getCacheKey opts
    match assocFindK st.resultCache cacheKey with
    | some cached =>
      if resultCacheValid now cached then ⟨Except.ok cached.results, opts', st⟩
      else searchCore oracle cfg now opts' parsedQuery cacheKey st
    | none => searchCore oracle cfg now opts' parsedQuery cacheKey st

/-! ## Helper lemmas: lists, association maps, deduplication -/

theorem length_dropWhile_le' (p : α → Bool) (l : List α) :
    (l.dropWhile p).length ≤ l.length := by
  induction l with
  | nil => simp [List.dropWhile]
  | cons a rest ih =>
    by_cases h : p a
    · simp [List.dropWhile, h]; omega
    · simp [List.dropWhile, h]

theorem jsDedupGo_subset [DecidableEq α] :
    ∀ (l seen : List α) (x : α), x ∈ jsDedupGo seen l → x ∈ l := by
  intro l
  induction l with
  | nil => intro seen x hx; simp [jsDedupGo] at hx
  | cons a rest ih =>
    intro seen x hx
    by_cases ha : a ∈ seen
    · simp [jsDedupGo, ha] at hx
      exact List.mem_cons_of_mem a (ih seen x hx)
    · simp [jsDedupGo, ha] at hx
      rcases hx with hx | hx
      · simp [hx]
      · exact List.mem_cons_of_mem a (ih (a :: seen) x hx)

theorem jsDedup_subset [DecidableEq α] {l : List α} {x : α} (h : x ∈ jsDedup l) :
    x ∈ l := jsDedupGo_subset l [] x h

theorem assocFind_eq_none_iff (m : List (String × α)) (k : String) :
    assocFind m k = none ↔ k ∉ m.map Prod.fst := by
  induction m with
  | nil => simp [assocFind]
  | cons p rest ih =>
    by_cases h : p.1 = k
    · simp [assocFind, h]
    · simp [assocFind, h, ih, Ne.symm h]

theorem assocFind_mem {m : List (String × α)} {k : String} {v : α}
    (h : assocFind m k = some v) : (k, v) ∈ m := by
  induction m with
  | nil => simp [assocFind] at h
  | cons p rest ih =>
    by_cases hk : p.1 = k
    · simp [assocFind, hk] at h
      have : p = (k, v) := by
        cases p
        simp_all
      rw [← this]
      exact List.mem_cons_self p rest
    · simp [assocFind, hk] at h
      exact List.mem_cons_of_mem p (ih h)

theorem assocFind_of_mem_nodup {m : List (String × α)} {p : String × α}
    (hnd : (m.map Prod.fst).Nodup) (hp : p ∈ m) : assocFind m p.1 = some p.2 := by
  induction m with
  | nil => simp at hp
  | cons q rest ih =>
    simp only [List.map_cons, List.nodup_cons] at hnd
    rcases List.mem_cons.mp hp with h | h
    · subst h; simp [assocFind]
    · have hne : q.1 ≠ p.1 := by
        intro he
        exact hnd.1 (he ▸ List.mem_map_of_mem Prod.fst h)
      simp [assocFind, hne]
      exact ih hnd.2 h

theorem assocSet_map_fst {m : List (String × α)} {k : String} {ex : α}
    (hf : assocFind m k = some ex) (v : α) :
    (assocSet m k v).map Prod.fst = m.map Prod.fst := by
  induction m with
  | nil => simp [assocFind] at hf
  | cons p rest ih =>
    by_cases hk : p.1 = k
    · simp [assocSet, hk]
    · simp [assocFind, hk] at hf
      simp [assocSet, hk, ih hf]

theorem mem_assocSet {m : List (String × α)} {k : String} {v : α} {p : String × α}
    (hnd : (m.map Prod.fst).Nodup) (hp : p ∈ assocSet m k v) :
    p = (k, v) ∨ (p ∈ m ∧ p.1 ≠ k) := by
  induction m with
  | nil =>
    simp [assocSet] at hp
    exact Or.inl hp
  | cons q rest ih =>
    simp only [assocSet] at hp
    simp only [List.map_cons, List.nodup_cons] at hnd
    by_cases hk : q.1 = k
    · rw [if_pos hk] at hp
      rcases List.mem_cons.mp hp with h | h
      · exact Or.inl (by rw [h, hk])
      · right
        refine ⟨List.mem_cons_of_mem q h, ?_⟩
        intro he
        rw [← hk] at he
        exact hnd.1 (he ▸ List.mem_map_of_mem Prod.fst h)
    · rw [if_neg hk] at hp
      rcases List.mem_cons.mp hp with h | h
      · right
        refine ⟨by simp [h], ?_⟩
        rw [h]
        exact hk
      · rcases ih hnd.2 h with h' | h'
        · exact Or.inl h'
        · exact Or.inr ⟨List.mem_cons_of_mem q h'.1, h'.2⟩

/-! ## The merge invariant

`mergeResults` folds `mergeStep` over the per-scope results.  The invariant
below relates the association map to the prefix of the results already
processed; it yields deduplication, the max-score property and the
highlight-subset property of the merged output. -/

structure MergeInv (processed : List SearchResultM)
    (m : List (String × SearchResultM)) : Prop where
  keys_eq : ∀ p ∈ m, p.2.file.path = p.1
  keys_nodup : (m.map Prod.fst).Nodup
  origin : ∀ p ∈ m, ∃ r' ∈ processed, r'.file.path = p.1 ∧
    p.2.relevanceScore = r'.relevanceScore ∧ p.2.matchType = r'.matchType
  maximal : ∀ p ∈ m, ∀ r'' ∈ processed, r''.file.path = p.1 →
    r''.relevanceScore.val ≤ p.2.relevanceScore.val
  hl_sub : ∀ p ∈ m, ∀ h ∈ p.2.highlights, ∃ r' ∈ processed,
    r'.file.path = p.1 ∧ h ∈ r'.highlights
  covered : ∀ r' ∈ processed, r'.file.path ∈ m.map Prod.fst

theorem mergeStep_inv {processed : List SearchResultM}
    {m : List (String × SearchResultM)} (inv : MergeInv processed m)
    (r : SearchResultM) : MergeInv (processed ++ [r]) (mergeStep m r) := by
  cases hf : assocFind m r.file.path with
  | none =>
    have hnotin : r.file.path ∉ m.map Prod.fst := (assocFind_eq_none_iff m _).mp hf
    have hstep : mergeStep m r = m ++ [(r.file.path, r)] := by
      simp [mergeStep, hf]
    rw [hstep]
    refine ⟨?_, ?_, ?_, ?_, ?_, ?_⟩
    · intro p hp
      rcases List.mem_append.mp hp with h | h
      · exact inv.keys_eq p h
      · simp at h; simp [h]
    · rw [List.map_append]
      simp only [List.map_cons, List.map_nil]
      rw [List.nodup_append]
      exact ⟨inv.keys_nodup, List.nodup_singleton _, by simpa using hnotin⟩
    · intro p hp
      rcases List.mem_append.mp hp with h | h
      · obtain ⟨r', hr', h1, h2, h3⟩ := inv.origin p h
        exact ⟨r', List.mem_append_left _ hr', h1, h2, h3⟩
      · simp at h
        exact ⟨r, by simp, by simp [h], by simp [h], by simp [h]⟩
    · intro p hp r'' hr'' hpath
      rcases List.mem_append.mp hp with h | h
      · rcases List.mem_append.mp hr'' with h' | h'
        · exact inv.maximal p h r'' h' hpath
        · simp at h'
          subst h'
          exfalso
          apply hnotin
          rw [hpath]
          exact List.mem_map_of_mem Prod.fst h
      · simp at h
        rcases List.mem_append.mp hr'' with h' | h'
        · exfalso
          apply hnotin
          have hcov := inv.covered r'' h'
          rw [hpath] at hcov
          simpa [h] using hcov
        · simp at h'
          simp [h, h']
    · intro p hp h hh
      rcases List.mem_append.mp hp with hm | hm
      · obtain ⟨r', hr', h1, h2⟩ := inv.hl_sub p hm h hh
        exact ⟨r', List.mem_append_left _ hr', h1, h2⟩
      · simp at hm
        refine ⟨r, by simp, by simp [hm], ?_⟩
        have hsnd : p.2 = r := by rw [hm]
        rwa [hsnd] at hh
    · intro r' hr'
      rcases List.mem_append.mp hr' with h | h
      · rw [List.map_append]
        exact List.mem_append_left _ (inv.covered r' h)
      · simp at h
        rw [List.map_append, h]
        simp
  | some existing =>
    have hmem : (r.file.path, existing) ∈ m := assocFind_mem hf
    by_cases hlt : JsNum.lt existing.relevanceScore r.relevanceScore
    · have hstep : mergeStep m r = assocSet m r.file.path
          { r with highlights := jsDedup (existing.highlights ++ r.highlights) } := by
        simp [mergeStep, hf, hlt]
      rw [hstep]
      have hkeys := assocSet_map_fst hf
        { r with highlights := jsDedup (existing.highlights ++ r.highlights) }
      refine ⟨?_, ?_, ?_, ?_, ?_, ?_⟩
      · intro p hp
        rcases mem_assocSet inv.keys_nodup hp with h | h
        · simp [h]
        · exact inv.keys_eq p h.1
      · rw [hkeys]; exact inv.keys_nodup
      · intro p hp
        rcases mem_assocSet inv.keys_nodup hp with h | h
        · exact ⟨r, by simp, by simp [h], by simp [h], by simp [h]⟩
        · obtain ⟨r', hr', h1, h2, h3⟩ := inv.origin p h.1
          exact ⟨r', List.mem_append_left _ hr', h1, h2, h3⟩
      · intro p hp r'' hr'' hpath
        rcases mem_assocSet inv.keys_nodup hp with h | h
        · have hp2 : p.2.relevanceScore = r.relevanceScore := by simp [h]
          rcases List.mem_append.mp hr'' with h' | h'
          · have hp1 : p.1 = r.file.path := by simp [h]
            have hle := inv.maximal (r.file.path, existing) hmem r'' h'
              (by rw [hpath, hp1])
            have hlt' := (JsNum.lt_iff _ _).mp hlt
            rw [hp2]
            exact le_of_lt (lt_of_le_of_lt hle hlt')
          · simp at h'
            subst h'
            rw [hp2]
        · rcases List.mem_append.mp hr'' with h' | h'
          · exact inv.maximal p h.1 r'' h' hpath
          · simp at h'
            subst h'
            exact absurd hpath.symm h.2
      · intro p hp h hh
        rcases mem_assocSet inv.keys_nodup hp with hm | hm
        · have hsnd : p.2.highlights = jsDedup (existing.highlights ++ r.highlights) := by
            simp [hm]
          rw [hsnd] at hh
          rcases List.mem_append.mp (jsDedup_subset hh) with hx | hx
          · obtain ⟨r', hr', h1, h2⟩ :=
              inv.hl_sub (r.file.path, existing) hmem h hx
            refine ⟨r', List.mem_append_left _ hr', ?_, h2⟩
            rw [h1]
            simp [hm]
          · exact ⟨r, by simp, by simp [hm], hx⟩
        · obtain ⟨r', hr', h1, h2⟩ := inv.hl_sub p hm.1 h hh
          exact ⟨r', List.mem_append_left _ hr', h1, h2⟩
      · intro r' hr'
        rw [hkeys]
        rcases List.mem_append.mp hr' with h | h
        · exact inv.covered r' h
        · simp at h
          rw [h]
          exact List.mem_map_of_mem Prod.fst hmem
    · have hstep : mergeStep m r = m := by
        simp [mergeStep, hf, hlt]
      rw [hstep]
      refine ⟨inv.keys_eq, inv.keys_nodup, ?_, ?_, ?_, ?_⟩
      · intro p hp
        obtain ⟨r', hr', h1, h2, h3⟩ := inv.origin p hp
        exact ⟨r', List.mem_append_left _ hr', h1, h2, h3⟩
      · intro p hp r'' hr'' hpath
        rcases List.mem_append.mp hr'' with h' | h'
        · exact inv.maximal p hp r'' h' hpath
        · simp at h'
          rw [h'] at hpath
          have hfind := assocFind_of_mem_nodup inv.keys_nodup hp
          rw [← hpath, hf] at hfind
          have hp2 : existing = p.2 := by injection hfind
          rw [h', ← hp2]
          have hnlt := (JsNum.lt_iff existing.relevanceScore r.relevanceScore).not.mp
            (by simpa using hlt)
          exact le_of_not_lt hnlt
      · intro p hp h hh
        obtain ⟨r', hr', h1, h2⟩ := inv.hl_sub p hp h hh
        exact ⟨r', List.mem_append_left _ hr', h1, h2⟩
      · intro r' hr'
        rcases List.mem_append.mp hr' with h | h
        · exact inv.covered r' h
        · simp at h
          rw [h]
          exact List.mem_map_of_mem Prod.fst hmem

theorem mergeFold_inv :
    ∀ (l : List SearchResultM) (processed : List SearchResultM)
      (m : List (String × SearchResultM)), MergeInv processed m →
      MergeInv (processed ++ l) (l.foldl mergeStep m) := by
  intro l
  induction l with
  | nil => intro processed m inv; simpa using inv
  | cons r rest ih =>
    intro processed m inv
    have := ih (processed ++ [r]) (mergeStep m r) (mergeStep_inv inv r)
    simpa using this

theorem mergeResults_inv (l : List SearchResultM) :
    MergeInv l (l.foldl mergeStep []) := by
  have := mergeFold_inv l [] [] ⟨by simp, by simp, by simp, by simp, by simp, by simp⟩
  simpa using this

theorem mergeResults_mem {l : List SearchResultM} {r : SearchResultM}
    (h : r ∈ mergeResults l) :
    (∃ r' ∈ l, r'.file.path = r.file.path ∧ r.relevanceScore = r'.relevanceScore ∧
      r.matchType = r'.matchType) ∧
    (∀ r'' ∈ l, r''.file.path = r.file.path →
      r''.relevanceScore.val ≤ r.relevanceScore.val) ∧
    (∀ hl ∈ r.highlights, ∃ r' ∈ l, r'.file.path = r.file.path ∧ hl ∈ r'.highlights) := by
  unfold mergeResults at h
  obtain ⟨p, hp, hpr⟩ := List.mem_map.mp h
  have inv := mergeResults_inv l
  have hkey : p.1 = r.file.path := by rw [← hpr, inv.keys_eq p hp]
  refine ⟨?_, ?_, ?_⟩
  · obtain ⟨r', hr', h1, h2, h3⟩ := inv.origin p hp
    exact ⟨r', hr', by rw [h1, hkey], by rw [← hpr, h2], by rw [← hpr, h3]⟩
  · intro r'' hr'' hpath
    have := inv.maximal p hp r'' hr'' (by rw [hpath, ← hkey])
    rwa [hpr] at this
  · intro hl hhl
    rw [← hpr] at hhl
    obtain ⟨r', hr', h1, h2⟩ := inv.hl_sub p hp hl hhl
    exact ⟨r', hr', by rw [h1, hkey], h2⟩

theorem mergeResults_nodup_paths (l : List SearchResultM) :
    ((mergeResults l).map (fun r => r.file.path)).Nodup := by
  unfold mergeResults
  have inv := mergeResults_inv l
  rw [List.map_map]
  have heq : (l.foldl mergeStep []).map ((fun r => r.file.path) ∘ Prod.snd) =
      (l.foldl mergeStep []).map Prod.fst := by
    apply List.map_congr_left
    intro p hp
    exact inv.keys_eq p hp
  rw [heq]
  exact inv.keys_nodup

/-! ## Score bounds -/

theorem foldl_val_nonneg {α : Type} {f : JsNum → α → JsNum}
    (hf : ∀ acc t, 0 ≤ acc.val → 0 ≤ (f acc t).val) :
    ∀ (l : List α) (acc : JsNum), 0 ≤ acc.val → 0 ≤ (List.foldl f acc l).val := by
  intro l
  induction l with
  | nil => intro acc h; simpa using h
  | cons t rest ih =>
    intro acc h
    exact ih (f acc t) (hf acc t h)

theorem JsNum.val_den_one (n : Int) : JsNum.val ⟨n, 1, Int.one_pos⟩ = (n : ℚ) := by
  simp [JsNum.val]

theorem JsNum.val_div_posnum {b : JsNum} (hb : 0 < b.num) (a : JsNum) :
    (a.div b).val = a.val / b.val := by
  simp only [JsNum.div, dif_pos hb, JsNum.val]
  have hbn : (b.num : ℚ) ≠ 0 := by exact_mod_cast Int.ne_of_gt hb
  have had : (a.den : ℚ) ≠ 0 := a.den_ne
  have hbd : (b.den : ℚ) ≠ 0 := b.den_ne
  push_cast
  field_simp

theorem filenameScoreStep_nonneg (lowerFilename : String) (acc : JsNum)
    (term : String) (h : 0 ≤ acc.val) : 0 ≤ (filenameScoreStep lowerFilename acc term).val := by
  simp only [filenameScoreStep]
  split_ifs with h1 h2 h3
  · rw [JsNum.val_add, JsNum.val_ofNat]; linarith
  · rw [JsNum.val_add, JsNum.val_ofNat]; linarith
  · rw [JsNum.val_add, JsNum.val_add, jsMax_val, JsNum.val_ofNat, JsNum.val_ofNat]
    have hmx := le_max_left (JsNum.val (JsNum.ofNat 0))
      (((JsNum.ofNat 20).sub
        (((JsNum.ofNat ((idxOfInfix (lc term).data lowerFilename.data).getD 0)).div
          (JsNum.ofNat lowerFilename.length)).mul (JsNum.ofNat 20))).val)
    rw [JsNum.val_ofNat] at hmx
    push_cast at hmx ⊢
    linarith
  · exact h

theorem contentScoreStep_nonneg (lowerContent : String) (acc : JsNum)
    (term : String) (h : 0 ≤ acc.val) : 0 ≤ (contentScoreStep lowerContent acc term).val := by
  simp only [contentScoreStep]
  split_ifs with h1
  · rw [JsNum.val_add, jsMin_val, JsNum.val_ofNat, JsNum.val_ofNat]
    push_cast
    have hmin : (0 : ℚ) ≤
        min (50 : ℚ) ((countMatches (lc term).data lowerContent.data : ℚ) * 10) :=
      le_min (by norm_num) (by positivity)
    linarith
  · exact h

theorem contentMultiTermBonus_nonneg (lowerContent : String) (searchTerms : List String)
    (score : JsNum) (h : 0 ≤ score.val) :
    0 ≤ (contentMultiTermBonus lowerContent searchTerms score).val := by
  unfold contentMultiTermBonus
  split_ifs with h1
  · rw [JsNum.val_add, JsNum.val_mul, JsNum.val_div_posnum (by
      show (0 : Int) < (searchTerms.length : Int)
      exact_mod_cast Nat.lt_of_lt_of_le Nat.zero_lt_one (le_of_lt h1))]
    rw [JsNum.val_ofNat, JsNum.val_ofNat, JsNum.val_ofNat]
    have : (0 : ℚ) ≤ (((searchTerms.filter (fun term => strContains lowerContent (lc term))).length : ℚ) /
        (searchTerms.length : ℚ)) * 30 := by positivity
    linarith
  · exact h

theorem jsMin100_bounds {s : JsNum} (h : 0 ≤ s.val) :
    0 ≤ (jsMin (JsNum.ofNat 100) s).val ∧ (jsMin (JsNum.ofNat 100) s).val ≤ 100 := by
  rw [jsMin_val, JsNum.val_ofNat]
  push_cast
  exact ⟨le_min (by norm_num) h, min_le_left _ _⟩

theorem calculateFilenameRelevance_bounds (filename : String) (terms : List String) :
    0 ≤ (calculateFilenameRelevance filename terms).val ∧
      (calculateFilenameRelevance filename terms).val ≤ 100 := by
  unfold calculateFilenameRelevance
  exact jsMin100_bounds (foldl_val_nonneg
    (fun acc t h => filenameScoreStep_nonneg (lc filename) acc t h) terms (JsNum.ofNat 0)
    (by rw [JsNum.val_ofNat]; norm_num))

theorem calculateContentRelevance_bounds (content : String) (terms : List String) :
    0 ≤ (calculateContentRelevance content terms).val ∧
      (calculateContentRelevance content terms).val ≤ 100 := by
  unfold calculateContentRelevance
  exact jsMin100_bounds (contentMultiTermBonus_nonneg _ _ _ (foldl_val_nonneg
    (fun acc t h => contentScoreStep_nonneg (lc content) acc t h) terms (JsNum.ofNat 0)
    (by rw [JsNum.val_ofNat]; norm_num)))

theorem jsMax0_nonneg (x : JsNum) : 0 ≤ (jsMax (JsNum.ofNat 0) x).val := by
  rw [jsMax_val, JsNum.val_ofNat]
  push_cast
  exact le_max_left 0 _

theorem calculateFinalScore_bounds (now : Int) (r : SearchResultM)
    (h : 0 ≤ r.relevanceScore.val) :
    0 ≤ (calculateFinalScore now r).val ∧ (calculateFinalScore now r).val ≤ 100 := by
  simp only [calculateFinalScore]
  apply jsMin100_bounds
  have hmx := jsMax0_nonneg ((JsNum.ofNat 10).sub
    ((((JsNum.ofInt (now - r.file.lastModified)).div
        (JsNum.ofNat (1000 * 60 * 60 * 24))).div (JsNum.ofNat 30)).mul (JsNum.ofNat 10)))
  split_ifs <;>
    (try simp only [JsNum.val_add, JsNum.val_ofNat]) <;> (try push_cast) <;> linarith

/-! ## Positivity of the per-scope results -/

theorem searchFilenames_pos {terms : List String} {files : List FileMetadataM}
    {r : SearchResultM} (h : r ∈ searchFilenames terms files) :
    0 < r.relevanceScore.val := by
  unfold searchFilenames at h
  obtain ⟨file, _, heq⟩ := List.mem_filterMap.mp h
  by_cases hlt : JsNum.lt (JsNum.ofNat 0) (calculateFilenameRelevance file.name terms)
  · rw [if_pos hlt] at heq
    have hre := Option.some.inj heq
    have hscore : r.relevanceScore = calculateFilenameRelevance file.name terms := by
      rw [← hre]
    rw [hscore]
    have := (JsNum.lt_iff _ _).mp hlt
    rwa [JsNum.val_ofNat] at this
  · rw [if_neg hlt] at heq
    exact absurd heq (by simp)

theorem searchMetadata_pos {terms : List String} {files : List FileMetadataM}
    {r : SearchResultM} (h : r ∈ searchMetadata terms files) :
    0 < r.relevanceScore.val := by
  unfold searchMetadata at h
  obtain ⟨file, _, heq⟩ := List.mem_filterMap.mp h
  by_cases hlt : JsNum.lt (JsNum.ofNat 0)
      (calculateContentRelevance (extractMetadataAsText file) terms)
  · rw [if_pos hlt] at heq
    have hre := Option.some.inj heq
    have hscore : r.relevanceScore =
        (calculateContentRelevance (extractMetadataAsText file) terms).mul
          ⟨7, 10, by omega⟩ := by rw [← hre]
    rw [hscore, JsNum.val_mul]
    have hpos := (JsNum.lt_iff _ _).mp hlt
    rw [JsNum.val_ofNat] at hpos
    have h710 : (0 : ℚ) < JsNum.val ⟨7, 10, by omega⟩ := by
      norm_num [JsNum.val]
    push_cast at hpos
    exact mul_pos hpos h710
  · rw [if_neg hlt] at heq
    exact absurd heq (by simp)

theorem searchContentGo_pos (oracle : StoreOracle) (cfg : SearchConfig) (now : Int)
    (terms : List String) :
    ∀ (files : List FileMetadataM) (st : ContentCacheState) (r : SearchResultM),
      r ∈ (searchContentGo oracle cfg now terms files st).1 →
      0 < r.relevanceScore.val := by
  intro files
  induction files with
  | nil => intro st r h; simp [searchContentGo] at h
  | cons file rest ih =>
    intro st r h
    simp only [searchContentGo] at h
    by_cases hlt : JsNum.lt (JsNum.ofNat 0) (calculateContentRelevance
        (extractContent oracle cfg now st file).1.content terms)
    · rw [if_pos hlt] at h
      rcases List.mem_cons.mp h with h' | h'
      · have hscore : r.relevanceScore = calculateContentRelevance
            (extractContent oracle cfg now st file).1.content terms := by rw [h']
        rw [hscore]
        have := (JsNum.lt_iff _ _).mp hlt
        rwa [JsNum.val_ofNat] at this
      · exact ih _ r h'
    · rw [if_neg hlt] at h
      exact ih _ r h

theorem searchContent_pos {oracle : StoreOracle} {cfg : SearchConfig} {now : Int}
    {terms : List String} {files : List FileMetadataM} {st : ContentCacheState}
    {r : SearchResultM} (h : r ∈ (searchContent oracle cfg now terms files st).1) :
    0 < r.relevanceScore.val := by
  unfold searchContent at h
  exact searchContentGo_pos oracle cfg now terms _ st r h

/-! ## Ranking, truncation and preview lemmas -/

theorem rankResults_mem {now : Int} {l : List SearchResultM} {r : SearchResultM}
    (h : r ∈ rankResults now l) :
    ∃ r' ∈ l, r = { r' with relevanceScore := calculateFinalScore now r' } := by
  unfold rankResults at h
  have hperm := List.perm_insertionSort (fun a b => resultLe a b = true)
    (l.map fun result => { result with relevanceScore := calculateFinalScore now result })
  rw [hperm.mem_iff] at h
  obtain ⟨r', hr', heq⟩ := List.mem_map.mp h
  exact ⟨r', hr', heq.symm⟩

theorem rankResults_paths_perm (now : Int) (l : List SearchResultM) :
    ((rankResults now l).map (fun r => r.file.path)).Perm
      (l.map (fun r => r.file.path)) := by
  unfold rankResults
  have hperm := List.perm_insertionSort (fun a b => resultLe a b = true)
    (l.map fun result => { result with relevanceScore := calculateFinalScore now result })
  have hmap := hperm.map (fun r => r.file.path)
  rw [List.map_map] at hmap
  exact hmap

theorem addContentPreviews_paths (oracle : StoreOracle) (cfg : SearchConfig) (now : Int) :
    ∀ (l : List SearchResultM) (st : ContentCacheState),
      ((addContentPreviews oracle cfg now l st).1).map (fun r => r.file.path) =
        l.map (fun r => r.file.path) := by
  intro l
  induction l with
  | nil => intro st; simp [addContentPreviews]
  | cons r rest ih =>
    intro st
    by_cases hmt : r.matchType = MatchTypeM.content ∨ r.matchType = MatchTypeM.filename
    · simp [addContentPreviews, hmt, ih]
    · simp [addContentPreviews, hmt, ih]

theorem addContentPreviews_scores (oracle : StoreOracle) (cfg : SearchConfig) (now : Int) :
    ∀ (l : List SearchResultM) (st : ContentCacheState),
      ((addContentPreviews oracle cfg now l st).1).map (fun r => r.relevanceScore) =
        l.map (fun r => r.relevanceScore) := by
  intro l
  induction l with
  | nil => intro st; simp [addContentPreviews]
  | cons r rest ih =>
    intro st
    by_cases hmt : r.matchType = MatchTypeM.content ∨ r.matchType = MatchTypeM.filename
    · simp [addContentPreviews, hmt, ih]
    · simp [addContentPreviews, hmt, ih]

/-! ## Engine-level invariants -/

/-- All relevance scores of a result list lie in `[0, 100]`. -/
def GoodScores (rs : List SearchResultM) : Prop :=
  ∀ r ∈ rs, 0 ≤ r.relevanceScore.val ∧ r.relevanceScore.val ≤ 100

/-- Every list held in the result cache satisfies `GoodScores` (true of every
state the engine can reach, since only final result lists are cached). -/
def GoodState (st : EngineState) : Prop :=
  ∀ e ∈ st.resultCache, GoodScores e.2.results

/-- No two results of the list share a `file.path`. -/
def DedupPaths (rs : List SearchResultM) : Prop :=
  (rs.map (fun r => r.file.path)).Nodup

/-- Every list held in the result cache satisfies `DedupPaths`. -/
def DedupState (st : EngineState) : Prop :=
  ∀ e ∈ st.resultCache, DedupPaths e.2.results

theorem assocFindK_mem [DecidableEq κ] {m : List (κ × α)} {k : κ} {v : α}
    (h : assocFindK m k = some v) : (k, v) ∈ m := by
  induction m with
  | nil => simp [assocFindK] at h
  | cons p rest ih =>
    by_cases hk : p.1 = k
    · simp [assocFindK, hk] at h
      have : p = (k, v) := by cases p; simp_all
      rw [← this]
      exact List.mem_cons_self p rest
    · simp [assocFindK, hk] at h
      exact List.mem_cons_of_mem p (ih h)

theorem mem_assocSetK [DecidableEq κ] {m : List (κ × α)} {k : κ} {v : α}
    {e : κ × α} (he : e ∈ assocSetK m k v) : e ∈ m ∨ e = (k, v) := by
  induction m with
  | nil => simp [assocSetK] at he; exact Or.inr he
  | cons p rest ih =>
    simp only [assocSetK] at he
    by_cases hk : p.1 = k
    · rw [if_pos hk] at he
      rcases List.mem_cons.mp he with h | h
      · exact Or.inr (by rw [h, hk])
      · exact Or.inl (List.mem_cons_of_mem p h)
    · rw [if_neg hk] at he
      rcases List.mem_cons.mp he with h | h
      · exact Or.inl (by rw [h]; exact List.mem_cons_self p rest)
      · rcases ih h with h' | h'
        · exact Or.inl (List.mem_cons_of_mem p h')
        · exact Or.inr h'

theorem mem_cacheResults {cache : List (CacheKeyM × ResultCacheEntry)}
    {key : CacheKeyM} {rs : List SearchResultM} {now : Int} {e : CacheKeyM × ResultCacheEntry}
    (he : e ∈ cacheResults cache key rs now) :
    e ∈ cache ∨ e = (key, ⟨rs, now⟩) := by
  simp only [cacheResults] at he
  split_ifs at he with hlen
  · cases hhead : (assocSetK cache key ⟨rs, now⟩).head? with
    | none => rw [hhead] at he; exact mem_assocSetK he
    | some q =>
      rw [hhead] at he
      exact mem_assocSetK (List.mem_of_mem_filter he)
  · exact mem_assocSetK he

/-! ## The ranked pipeline preserves score bounds and path dedup -/

theorem pipelineScores (now : Int) (opts : SearchOptionsM)
    (scResults : List SearchResultM)
    (hpos : ∀ r ∈ scResults, 0 < r.relevanceScore.val) (n : Nat) :
    GoodScores ((rankResults now (applyPostFilters (mergeResults scResults) opts)).take n) := by
  intro r hr
  have hr1 : r ∈ rankResults now (applyPostFilters (mergeResults scResults) opts) :=
    (List.take_sublist n _).subset hr
  obtain ⟨r', hr', heq⟩ := rankResults_mem hr1
  have hr2 : r' ∈ mergeResults scResults := by
    unfold applyPostFilters at hr'
    exact (List.filter_sublist _).subset hr'
  obtain ⟨⟨r0, hr0, _, hsc, _⟩, _, _⟩ := mergeResults_mem hr2
  have hbase : 0 ≤ r'.relevanceScore.val := by
    rw [hsc]
    exact le_of_lt (hpos r0 hr0)
  have hbounds := calculateFinalScore_bounds now r' hbase
  have hscore : r.relevanceScore = calculateFinalScore now r' := by rw [heq]
  rw [hscore]
  exact hbounds

theorem pipelineDedup (now : Int) (opts : SearchOptionsM)
    (scResults : List SearchResultM) (n : Nat) :
    DedupPaths ((rankResults now (applyPostFilters (mergeResults scResults) opts)).take n) := by
  unfold DedupPaths
  have hmerged := mergeResults_nodup_paths scResults
  have hpost : ((applyPostFilters (mergeResults scResults) opts).map
      (fun r => r.file.path)).Nodup := by
    apply List.Nodup.sublist _ hmerged
    apply List.Sublist.map
    unfold applyPostFilters
    exact List.filter_sublist _
  have hrank : ((rankResults now (applyPostFilters (mergeResults scResults) opts)).map
      (fun r => r.file.path)).Nodup :=
    ((rankResults_paths_perm now _).nodup_iff).mpr hpost
  rw [List.map_take]
  exact List.Nodup.sublist (List.take_sublist n _) hrank

theorem previews_goodScores {oracle : StoreOracle} {cfg : SearchConfig} {now : Int}
    {l : List SearchResultM} {st : ContentCacheState} (h : GoodScores l) :
    GoodScores (addContentPreviews oracle cfg now l st).1 := by
  intro r hr
  have hmem : r.relevanceScore ∈
      ((addContentPreviews oracle cfg now l st).1).map (fun r => r.relevanceScore) :=
    List.mem_map_of_mem _ hr
  rw [addContentPreviews_scores] at hmem
  obtain ⟨r', hr', heq⟩ := List.mem_map.mp hmem
  have := h r' hr'
  rw [heq] at this
  exact this

theorem previews_dedup {oracle : StoreOracle} {cfg : SearchConfig} {now : Int}
    {l : List SearchResultM} {st : ContentCacheState} (h : DedupPaths l) :
    DedupPaths (addContentPreviews oracle cfg now l st).1 := by
  unfold DedupPaths at h ⊢
  rw [addContentPreviews_paths]
  exact h

theorem ite_list_mem {c : Prop} [Decidable c] {l : List α} {P : α → Prop}
    (hl : ∀ r ∈ l, P r) : ∀ r ∈ (if c then l else []), P r := by
  split_ifs
  · exact hl
  · intro r hr; simp at hr

theorem performFallbackSearch_scores (oracle : StoreOracle) (now : Int)
    (opts : SearchOptionsM) (pq : ParsedQueryM) :
    GoodScores (performFallbackSearch oracle now opts pq) := by
  cases hld : oracle.listDirectory (jsOrS opts.basePath "/") with
  | error e =>
    simp only [performFallbackSearch, hld]
    intro r hr
    simp at hr
  | ok contents =>
    simp only [performFallbackSearch, hld]
    apply pipelineScores
    intro r hr
    rcases List.mem_append.mp hr with h1 | h2
    · exact ite_list_mem (fun r h => searchFilenames_pos h) r h1
    · exact ite_list_mem (fun r h => searchMetadata_pos h) r h2

theorem performFallbackSearch_dedup (oracle : StoreOracle) (now : Int)
    (opts : SearchOptionsM) (pq : ParsedQueryM) :
    DedupPaths (performFallbackSearch oracle now opts pq) := by
  cases hld : oracle.listDirectory (jsOrS opts.basePath "/") with
  | error e =>
    simp only [performFallbackSearch, hld]
    simp [DedupPaths]
  | ok contents =>
    simp only [performFallbackSearch, hld]
    apply pipelineDedup

theorem searchCore_scores {oracle : StoreOracle} {cfg : SearchConfig} {now : Int}
    {opts : SearchOptionsM} {pq : ParsedQueryM} {key : CacheKeyM} {st : EngineState}
    {rs : List SearchResultM}
    (h : (searchCore oracle cfg now opts pq key st).result = Except.ok rs) :
    GoodScores rs := by
  cases hidx : oracle.getIndex (jsOrS opts.basePath "/") (useQuickMode opts.basePath) with
  | error e =>
    simp only [searchCore, hidx] at h
    by_cases hsh : (strContains e "timeout" || strContains e "index") = true
    · rw [if_pos hsh] at h
      simp only [Except.ok.injEq] at h
      rw [← h]
      exact performFallbackSearch_scores oracle now opts pq
    · rw [if_neg hsh] at h
      simp at h
  | ok index =>
    simp only [searchCore, hidx] at h
    simp only [Except.ok.injEq] at h
    rw [← h]
    have hpos : ∀ r ∈
        ((if opts.searchIn.contains "filename" then
            searchFilenames pq.terms (applyPreFilters index.files opts)
          else []) ++
         (if opts.searchIn.contains "metadata" then
            searchMetadata pq.terms (applyPreFilters index.files opts)
          else []) ++
         (if opts.searchIn.contains "content" then
            searchContent oracle cfg now pq.terms (applyPreFilters index.files opts)
              st.contentCache
          else ([], st.contentCache)).1),
        0 < r.relevanceScore.val := by
      intro r hr
      rcases List.mem_append.mp hr with h12 | h3
      · rcases List.mem_append.mp h12 with h1 | h2
        · exact ite_list_mem (fun r h => searchFilenames_pos h) r h1
        · exact ite_list_mem (fun r h => searchMetadata_pos h) r h2
      · split_ifs at h3 with hc
        · exact searchContent_pos h3
        · simp at h3
    have hfr := pipelineScores now opts _ hpos (jsOrN opts.limit 50)
    by_cases hic : opts.includeContent = some true
    · rw [if_pos hic]
      exact previews_goodScores hfr
    · rw [if_neg hic]
      exact hfr

theorem searchCore_dedup {oracle : StoreOracle} {cfg : SearchConfig} {now : Int}
    {opts : SearchOptionsM} {pq : ParsedQueryM} {key : CacheKeyM} {st : EngineState}
    {rs : List SearchResultM}
    (h : (searchCore oracle cfg now opts pq key st).result = Except.ok rs) :
    DedupPaths rs := by
  cases hidx : oracle.getIndex (jsOrS opts.basePath "/") (useQuickMode opts.basePath) with
  | error e =>
    simp only [searchCore, hidx] at h
    by_cases hsh : (strContains e "timeout" || strContains e "index") = true
    · rw [if_pos hsh] at h
      simp only [Except.ok.injEq] at h
      rw [← h]
      exact performFallbackSearch_dedup oracle now opts pq
    · rw [if_neg hsh] at h
      simp at h
  | ok index =>
    simp only [searchCore, hidx] at h
    simp only [Except.ok.injEq] at h
    rw [← h]
    have hfr := pipelineDedup now opts
      ((if opts.searchIn.contains "filename" then
          searchFilenames pq.terms (applyPreFilters index.files opts)
        else []) ++
       (if opts.searchIn.contains "metadata" then
          searchMetadata pq.terms (applyPreFilters index.files opts)
        else []) ++
       (if opts.searchIn.contains "content" then
          searchContent oracle cfg now pq.terms (applyPreFilters index.files opts)
            st.contentCache
        else ([], st.contentCache)).1) (jsOrN opts.limit 50)
    by_cases hic : opts.includeContent = some true
    · rw [if_pos hic]
      exact previews_dedup hfr
    · rw [if_neg hic]
      exact hfr

theorem searchCore_state_entries {oracle : StoreOracle} {cfg : SearchConfig} {now : Int}
    {opts : SearchOptionsM} {pq : ParsedQueryM} {key : CacheKeyM} {st : EngineState}
    {e : CacheKeyM × ResultCacheEntry}
    (he : e ∈ (searchCore oracle cfg now opts pq key st).state.resultCache) :
    e ∈ st.resultCache ∨
      ∃ rs, (searchCore oracle cfg now opts pq key st).result = Except.ok rs ∧
        e.2.results = rs := by
  cases hidx : oracle.getIndex (jsOrS opts.basePath "/") (useQuickMode opts.basePath) with
  | error e' =>
    simp only [searchCore, hidx] at he
    split_ifs at he
    · exact Or.inl he
    · exact Or.inl he
  | ok index =>
    simp only [searchCore, hidx] at he ⊢
    rcases mem_cacheResults he with h | h
    · exact Or.inl h
    · right
      refine ⟨_, rfl, ?_⟩
      rw [h]

/-- C4: for every options value and every backing store, every result list
returned by `search` (normal path, fallback path or cache hit — provided the
cache holds only previously returned lists, `GoodState`) has all relevance
scores within `[0, 100]`; the bound survives per-scope scoring, the 0.7
metadata scaling, merging, and the ranking bonuses.  The returned state again
satisfies `GoodState`. -/
theorem search_scores_in_range (oracle : StoreOracle) (cfg : SearchConfig) (now : Int)
    (opts : SearchOptionsM) (st : EngineState) (hst : GoodState st)
    (rs : List SearchResultM)
    (hok : (search oracle cfg now opts st).result = Except.ok rs) :
    GoodScores rs ∧ GoodState (search oracle cfg now opts st).state := by
  by_cases hterm : (parseQuery opts.query).terms.length = 0
  · simp only [search, if_pos hterm] at hok ⊢
    simp only [Except.ok.injEq] at hok
    refine ⟨?_, hst⟩
    rw [← hok]
    intro r hr
    simp at hr
  · cases hfind : assocFindK st.resultCache (getCacheKey opts).1 with
    | some cached =>
      simp only [search, if_neg hterm, hfind] at hok ⊢
      by_cases hvalid : resultCacheValid now cached = true
      · rw [if_pos hvalid] at hok ⊢
        simp only [Except.ok.injEq] at hok
        refine ⟨?_, hst⟩
        rw [← hok]
        exact hst _ (assocFindK_mem hfind)
      · rw [if_neg hvalid] at hok ⊢
        refine ⟨searchCore_scores hok, ?_⟩
        intro e he
        rcases searchCore_state_entries he with h | ⟨rs', hok', heq⟩
        · exact hst e h
        · rw [heq]
          exact searchCore_scores hok'
    | none =>
      simp only [search, if_neg hterm, hfind] at hok ⊢
      refine ⟨searchCore_scores hok, ?_⟩
      intro e he
      rcases searchCore_state_entries he with h | ⟨rs', hok', heq⟩
      · exact hst e h
      · rw [heq]
        exact searchCore_scores hok'

/-- C5: no two results in a list returned by `search` share a `file.path`
(deduplication key is the full path); holds on the normal path, the fallback
path and — given a cache that only holds previously returned lists
(`DedupState`) — on cache hits, and is preserved in the resulting state. -/
theorem search_results_path_nodup (oracle : StoreOracle) (cfg : SearchConfig) (now : Int)
    (opts : SearchOptionsM) (st : EngineState) (hst : DedupState st)
    (rs : List SearchResultM)
    (hok : (search oracle cfg now opts st).result = Except.ok rs) :
    DedupPaths rs ∧ DedupState (search oracle cfg now opts st).state := by
  by_cases hterm : (parseQuery opts.query).terms.length = 0
  · simp only [search, if_pos hterm] at hok ⊢
    simp only [Except.ok.injEq] at hok
    refine ⟨?_, hst⟩
    rw [← hok]
    simp [DedupPaths]
  · cases hfind : assocFindK st.resultCache (getCacheKey opts).1 with
    | some cached =>
      simp only [search, if_neg hterm, hfind] at hok ⊢
      by_cases hvalid : resultCacheValid now cached = true
      · rw [if_pos hvalid] at hok ⊢
        simp only [Except.ok.injEq] at hok
        refine ⟨?_, hst⟩
        rw [← hok]
        exact hst _ (assocFindK_mem hfind)
      · rw [if_neg hvalid] at hok ⊢
        refine ⟨searchCore_dedup hok, ?_⟩
        intro e he
        rcases searchCore_state_entries he with h | ⟨rs', hok', heq⟩
        · exact hst e h
        · rw [heq]
          exact searchCore_dedup hok'
    | none =>
      simp only [search, if_neg hterm, hfind] at hok ⊢
      refine ⟨searchCore_dedup hok, ?_⟩
      intro e he
      rcases searchCore_state_entries he with h | ⟨rs', hok', heq⟩
      · exact hst e h
      · rw [heq]
        exact searchCore_dedup hok'

/-! ## Concrete evaluation fixtures -/

def wFile (n : String) : FileMetadataM :=
  { path := "/" ++ n, name := n, size := 10, lastModified := 0,
    mimeType := "text/plain", extension := "txt", isDirectory := false, depth := 1 }

def wIndex : FileIndexM :=
  { basePath := "/", lastUpdated := 0,
    files := [wFile "b1.txt", wFile "b2.txt"],
    totalSize := 20, directoryCount := 0, fileCount := 2 }

def wOracle : StoreOracle :=
  { getIndex := fun _ _ => Except.ok wIndex
    listDirectory := fun _ => Except.error "nope"
    readFile := fun _ => Except.ok "hello b" }

def wOpts : SearchOptionsM :=
  { query := "b", searchIn := ["filename"], fileTypes := none, sizeRange := none,
    dateRange := none, basePath := some "/docs", limit := none,
    includeContent := none, caseSensitive := none }

def wState0 : EngineState := ⟨[], ⟨[], 0⟩⟩

def wResults : List SearchResultM :=
  (search wOracle DEFAULT_SEARCH_CONFIG 9000000000000 wOpts wState0).result.toOption.getD []

theorem search_scores_in_range_witness :
    GoodState wState0 ∧ GoodScores wResults :=
  ⟨fun e he => absurd he (by simp [wState0]),
   (search_scores_in_range wOracle DEFAULT_SEARCH_CONFIG 9000000000000 wOpts wState0
      (fun e he => absurd he (by simp [wState0])) wResults rfl).1⟩

theorem search_results_path_nodup_witness :
    DedupState wState0 ∧ DedupPaths wResults :=
  ⟨fun e he => absurd he (by simp [wState0]),
   (search_results_path_nodup wOracle DEFAULT_SEARCH_CONFIG 9000000000000 wOpts wState0
      (fun e he => absurd he (by simp [wState0])) wResults rfl).1⟩

/-! ## C1: merge semantics -/

def c1file : FileMetadataM :=
  { path := "/f", name := "f", size := 0, lastModified := 0, mimeType := "",
    extension := "", isDirectory := false, depth := 0 }

def c1r1 : SearchResultM :=
  { file := c1file, matchType := MatchTypeM.filename,
    relevanceScore := JsNum.ofNat 90, contentPreview := none,
    highlights := ["a"], context := "f" }

def c1r2 : SearchResultM :=
  { file := c1file, matchType := MatchTypeM.metadata,
    relevanceScore := JsNum.ofNat 50, contentPreview := none,
    highlights := ["b"], context := "m" }

/-- C1 (amended): a merged result carries the `matchType` and
`relevanceScore` of a highest-scoring match for its path, and its highlights
are a *subset* of the union of that path's highlight sets — but not the full
union: a match that does not strictly exceed the running best score
contributes no highlights (see the counterexample). -/
theorem mergeResults_top_score_and_highlight_subset
    (results : List SearchResultM) (r : SearchResultM) (hr : r ∈ mergeResults results) :
    (∃ r' ∈ results, r'.file.path = r.file.path ∧
      r.relevanceScore = r'.relevanceScore ∧ r.matchType = r'.matchType) ∧
    (∀ r'' ∈ results, r''.file.path = r.file.path →
      r''.relevanceScore.val ≤ r.relevanceScore.val) ∧
    (∀ hl ∈ r.highlights, ∃ r' ∈ results, r'.file.path = r.file.path ∧
      hl ∈ r'.highlights) :=
  mergeResults_mem hr

theorem mergeResults_top_score_and_highlight_subset_witness :
    c1r1 ∈ mergeResults [c1r1, c1r2] ∧
    (∀ r'' ∈ [c1r1, c1r2], r''.file.path = c1r1.file.path →
      r''.relevanceScore.val ≤ c1r1.relevanceScore.val) :=
  ⟨by decide,
   (mergeResults_top_score_and_highlight_subset [c1r1, c1r2] c1r1 (by decide)).2.1⟩

/-- C1 counterexample: both results match the same path and the
lower-scoring one is produced second, yet the merged result's highlight list
is `["a"]`, not the deduplicated union `["a", "b"]` — `mergeResults` unions
highlights only when a later match scores strictly higher. -/
theorem mergeResults_drops_lower_highlights :
    c1r1.file.path = c1r2.file.path ∧ c1r2.highlights = ["b"] ∧
    (mergeResults [c1r1, c1r2]).map (fun r => r.highlights) = [["a"]] := by
  refine ⟨rfl, rfl, ?_⟩
  decide

/-! ## C3: the fallback limit -/

/-- C3 (amended): the fallback search truncates to `options.limit || 20`
results: at most 20 only when no (or a zero) explicit limit was passed, and
at most the caller's limit otherwise. -/
theorem fallback_limit_le_limit_or_20 (oracle : StoreOracle) (now : Int)
    (opts : SearchOptionsM) (pq : ParsedQueryM) :
    (performFallbackSearch oracle now opts pq).length ≤ jsOrN opts.limit 20 := by
  cases hld : oracle.listDirectory (jsOrS opts.basePath "/") with
  | error e =>
    simp [performFallbackSearch, hld]
  | ok contents =>
    simp only [performFallbackSearch, hld]
    exact List.length_take_le _ _

theorem fallback_limit_le_limit_or_20_witness :
    (performFallbackSearch wOracle 0 wOpts (parseQuery "b")).length ≤
      jsOrN wOpts.limit 20 :=
  fallback_limit_le_limit_or_20 wOracle 0 wOpts (parseQuery "b")

def c3entry (i : Nat) : DirEntryM :=
  { path := some ("/b" ++ toString i), href := none, name := some ("b" ++ toString i),
    size := some 1, lastModified := some 5, mimeType := some "text/plain",
    contentType := none, isDirectory := some false }

def c3oracle : StoreOracle :=
  { getIndex := fun _ _ => Except.error "Failed to index directory: Indexing timeout"
    listDirectory := fun _ => Except.ok ((List.range 21).map c3entry)
    readFile := fun _ => Except.error "x" }

def c3opts : SearchOptionsM :=
  { query := "b", searchIn := ["filename"], fileTypes := none, sizeRange := none,
    dateRange := none, basePath := some "/", limit := some 50,
    includeContent := none, caseSensitive := none }

/-- C3 counterexample: indexing fails timeout-shaped, so this `search` call
goes through the fallback path; with `limit: 50` and 21 matching files in the
directory listing the fallback returns 21 results — more than 20, because the
fallback truncates at `options.limit || 20`, not at 20. -/
theorem fallback_limit_counterexample :
    ((search c3oracle DEFAULT_SEARCH_CONFIG 9000000000000 c3opts
        ⟨[], ⟨[], 0⟩⟩).result.toOption.getD []).length = 21 := by
  decide

/-! ## C2: the fallback error handling of `search` -/

theorem getCacheKey_snd_basePath (opts : SearchOptionsM) :
    (getCacheKey opts).2.basePath = opts.basePath := rfl

/-- C2: when the index fetch rejects with a timeout- or indexing-shaped
message, `search` resolves with the fallback search's list (never an
exception); if the fallback's own directory listing rejects as well, that
list is `[]`; a `Search failed:` error reaches the caller exactly when the
index error is not timeout/indexing-shaped. -/
theorem search_fallback_on_indexing_error
    (oracle : StoreOracle) (cfg : SearchConfig) (now : Int) (opts : SearchOptionsM)
    (st : EngineState) (e : String)
    (hterm : (parseQuery opts.query).terms.length ≠ 0)
    (hmiss : assocFindK st.resultCache (getCacheKey opts).1 = none)
    (hidx : oracle.getIndex (jsOrS opts.basePath "/") (useQuickMode opts.basePath) =
      Except.error e) :
    ((strContains e "timeout" || strContains e "index") = true →
      (search oracle cfg now opts st).result =
        Except.ok (performFallbackSearch oracle now (getCacheKey opts).2
          (parseQuery opts.query)) ∧
      (∀ e', oracle.listDirectory (jsOrS opts.basePath "/") = Except.error e' →
        (search oracle cfg now opts st).result = Except.ok [])) ∧
    ((strContains e "timeout" || strContains e "index") = false →
      (search oracle cfg now opts st).result =
        Except.error ("Search failed: " ++ e)) := by
  have hidx' : oracle.getIndex (jsOrS (getCacheKey opts).2.basePath "/")
      (useQuickMode (getCacheKey opts).2.basePath) = Except.error e := hidx
  constructor
  · intro hsh
    constructor
    · simp only [search, if_neg hterm, hmiss, searchCore, hidx', if_pos hsh]
    · intro e' hld
      have hld' : oracle.listDirectory (jsOrS (getCacheKey opts).2.basePath "/") =
          Except.error e' := hld
      simp only [search, if_neg hterm, hmiss, searchCore, hidx', if_pos hsh,
        performFallbackSearch, hld']
  · intro hsh
    simp only [search, if_neg hterm, hmiss, searchCore, hidx']
    rw [if_neg (by simp [hsh])]

def c2oracle : StoreOracle :=
  { getIndex := fun _ _ => Except.error "Indexing timeout"
    listDirectory := fun _ => Except.error "boom"
    readFile := fun _ => Except.error "x" }

def c2opts : SearchOptionsM :=
  { query := "b", searchIn := ["filename"], fileTypes := none, sizeRange := none,
    dateRange := none, basePath := none, limit := none,
    includeContent := none, caseSensitive := none }

theorem search_fallback_on_indexing_error_witness :
    (parseQuery c2opts.query).terms.length ≠ 0 ∧
    (search c2oracle DEFAULT_SEARCH_CONFIG 0 c2opts ⟨[], ⟨[], 0⟩⟩).result =
      Except.ok [] :=
  ⟨by decide,
   (search_fallback_on_indexing_error c2oracle DEFAULT_SEARCH_CONFIG 0 c2opts
      ⟨[], ⟨[], 0⟩⟩ "Indexing timeout" (by decide) rfl rfl).1 (by decide)
     |>.2 "boom" rfl⟩

/-! ## C6: the content-size guard of `extractContent` -/

theorem extractContentBody_oversize (oracle : StoreOracle) (cfg : SearchConfig)
    (now : Int) (st : ContentCacheState) (file : FileMetadataM)
    (h : file.size > cfg.maxFileSize) :
    extractContent.extractContentBody oracle cfg now st file =
      (⟨extractMetadataAsText file, []⟩, st) := by
  simp [extractContent.extractContentBody, h]

theorem extractContentBody_reads_searchable (oracle : StoreOracle) (cfg : SearchConfig)
    (now : Int) (st : ContentCacheState) (file : FileMetadataM)
    (h : ¬ file.size > cfg.maxFileSize) (hs : isSearchableContent file = true) :
    (extractContent.extractContentBody oracle cfg now st file).1.reads = [file.path] := by
  simp only [extractContent.extractContentBody, if_neg h]
  unfold isSearchableContent at hs
  cases hft : getFileType file.mimeType file.extension
  case TEXT => cases hr : oracle.readFile file.path <;> simp [hr]
  case CODE => cases hr : oracle.readFile file.path <;> simp [hr]
  case CONFIG => cases hr : oracle.readFile file.path <;> simp [hr]
  case DOCUMENT => rw [hft] at hs; simp at hs
  case MEDIA => rw [hft] at hs; simp at hs

/-- C6 (amended): an oversized file (`size > maxFileSize`) never triggers a
raw read — but `extractContent` consults the content cache *before* the size
guard, so the guaranteed `extractMetadataAsText` return value holds only when
no cache entry exists for the path (a still-valid entry, possibly recorded
when the file was smaller, is returned as-is; see the counterexample).  A
file of size exactly `maxFileSize` is treated as extractable: for a
searchable type the raw read is attempted (the skip condition is `>`, not
`>=`). -/
theorem extractContent_size_guard (oracle : StoreOracle) (cfg : SearchConfig)
    (now : Int) (st : ContentCacheState) (file : FileMetadataM) :
    (file.size > cfg.maxFileSize →
      (extractContent oracle cfg now st file).1.reads = []) ∧
    (assocFind st.entries file.path = none → file.size > cfg.maxFileSize →
      extractContent oracle cfg now st file = (⟨extractMetadataAsText file, []⟩, st)) ∧
    (assocFind st.entries file.path = none → file.size = cfg.maxFileSize →
      isSearchableContent file = true →
      (extractContent oracle cfg now st file).1.reads = [file.path]) := by
  refine ⟨?_, ?_, ?_⟩
  · intro h
    cases hc : assocFind st.entries file.path with
    | some cached =>
      simp only [extractContent, hc]
      by_cases hv : contentCacheValid cfg now cached = true
      · rw [if_pos hv]
      · rw [if_neg hv, extractContentBody_oversize oracle cfg now st file h]
    | none =>
      simp only [extractContent, hc, extractContentBody_oversize oracle cfg now st file h]
  · intro hc h
    simp only [extractContent, hc, extractContentBody_oversize oracle cfg now st file h]
  · intro hc hsize hs
    have hng : ¬ file.size > cfg.maxFileSize := by omega
    simp only [extractContent, hc]
    exact extractContentBody_reads_searchable oracle cfg now st file hng hs

def c6file : FileMetadataM :=
  { path := "/big.txt", name := "big.txt", size := 10 * 1024 * 1024 + 1,
    lastModified := 0, mimeType := "text/plain", extension := "txt",
    isDirectory := false, depth := 0 }

def c6oracle : StoreOracle :=
  { getIndex := fun _ _ => Except.error "unused"
    listDirectory := fun _ => Except.error "unused"
    readFile := fun _ => Except.error "unused" }

theorem extractContent_size_guard_witness :
    c6file.size > DEFAULT_SEARCH_CONFIG.maxFileSize ∧
    extractContent c6oracle DEFAULT_SEARCH_CONFIG 0 ⟨[], 0⟩ c6file =
      (⟨extractMetadataAsText c6file, []⟩, ⟨[], 0⟩) :=
  ⟨by decide,
   (extractContent_size_guard c6oracle DEFAULT_SEARCH_CONFIG 0 ⟨[], 0⟩ c6file).2.1
     rfl (by decide)⟩

/-- C6 counterexample: a still-valid content-cache entry for the path is
returned before the size guard runs, so an oversized file does *not* return
`extractMetadataAsText(file)` when its path was cached earlier (e.g. cached
while the remote file was still small): the call returns the cached text
`"zz"`, which differs from the metadata text.  (No raw read happens either
way.) -/
theorem extractContent_cached_oversize_counterexample :
    c6file.size > DEFAULT_SEARCH_CONFIG.maxFileSize ∧
    (extractContent c6oracle DEFAULT_SEARCH_CONFIG 0
        ⟨[("/big.txt", ⟨"zz", 0, 2⟩)], 2⟩ c6file).1.content = "zz" ∧
    extractMetadataAsText c6file ≠ "zz" := by
  refine ⟨by decide, by decide, by decide⟩

/-! ## C7: `search` mutates the options by sorting in place -/

theorem searchCore_options_eq (oracle : StoreOracle) (cfg : SearchConfig) (now : Int)
    (opts : SearchOptionsM) (pq : ParsedQueryM) (key : CacheKeyM) (st : EngineState) :
    (searchCore oracle cfg now opts pq key st).options = opts := by
  cases hidx : oracle.getIndex (jsOrS opts.basePath "/") (useQuickMode opts.basePath) with
  | error e =>
    simp only [searchCore, hidx]
    split_ifs <;> rfl
  | ok index => simp only [searchCore, hidx]

theorem search_options_eq (oracle : StoreOracle) (cfg : SearchConfig) (now : Int)
    (opts : SearchOptionsM) (st : EngineState) :
    (search oracle cfg now opts st).options =
      if (parseQuery opts.query).terms.length = 0 then opts else (getCacheKey opts).2 := by
  by_cases hterm : (parseQuery opts.query).terms.length = 0
  · simp [search, hterm]
  · rw [if_neg hterm]
    cases hfind : assocFindK st.resultCache (getCacheKey opts).1 with
    | some cached =>
      simp only [search, if_neg hterm, hfind]
      by_cases hv : resultCacheValid now cached = true
      · rw [if_pos hv]
      · rw [if_neg hv]
        exact searchCore_options_eq oracle cfg now _ _ _ st
    | none =>
      simp only [search, if_neg hterm, hfind]
      exact searchCore_options_eq oracle cfg now _ _ _ st

/-- C7 (amended): a `search` call leaves the query, filters, limit and flags
of the options unchanged, but sorts `searchIn` and `fileTypes` *in place*
(`getCacheKey` calls `.sort()` on the caller's arrays): afterwards the two
arrays are permutations of their former selves (sorted), and every other
field is untouched.  The options are unchanged exactly when both arrays were
already sorted (in particular they are not immutable in general — see the
counterexample). -/
theorem search_mutates_options_only_by_sorting (oracle : StoreOracle)
    (cfg : SearchConfig) (now : Int) (opts : SearchOptionsM) (st : EngineState) :
    (search oracle cfg now opts st).options.query = opts.query ∧
    (search oracle cfg now opts st).options.sizeRange = opts.sizeRange ∧
    (search oracle cfg now opts st).options.dateRange = opts.dateRange ∧
    (search oracle cfg now opts st).options.basePath = opts.basePath ∧
    (search oracle cfg now opts st).options.limit = opts.limit ∧
    (search oracle cfg now opts st).options.includeContent = opts.includeContent ∧
    (search oracle cfg now opts st).options.caseSensitive = opts.caseSensitive ∧
    ((search oracle cfg now opts st).options.searchIn).Perm opts.searchIn ∧
    ((search oracle cfg now opts st).options.fileTypes).isSome = opts.fileTypes.isSome ∧
    ((search oracle cfg now opts st).options.fileTypes.getD []).Perm
      (opts.fileTypes.getD []) := by
  rw [search_options_eq]
  by_cases hterm : (parseQuery opts.query).terms.length = 0
  · rw [if_pos hterm]
    exact ⟨rfl, rfl, rfl, rfl, rfl, rfl, rfl, List.Perm.refl _, rfl, List.Perm.refl _⟩
  · rw [if_neg hterm]
    have hft2 : (getCacheKey opts).2.fileTypes = opts.fileTypes.map jsSortStrs := rfl
    refine ⟨rfl, rfl, rfl, rfl, rfl, rfl, rfl, ?_, ?_, ?_⟩
    · exact List.perm_insertionSort _ opts.searchIn
    · rw [hft2]
      cases opts.fileTypes <;> rfl
    · rw [hft2]
      cases opts.fileTypes with
      | none => exact List.Perm.refl _
      | some l =>
        simp only [Option.map_some', Option.getD_some]
        exact List.perm_insertionSort _ l

def c7opts : SearchOptionsM :=
  { query := "b", searchIn := ["filename", "content"], fileTypes := none,
    sizeRange := none, dateRange := none, basePath := none, limit := none,
    includeContent := none, caseSensitive := none }

/-- C7 counterexample: `search` does not leave the options unchanged —
`searchIn` comes back sorted (`.sort()` mutates the caller's array), so the
element order `["filename", "content"]` becomes `["content", "filename"]`. -/
theorem search_options_mutation_counterexample :
    (search c2oracle DEFAULT_SEARCH_CONFIG 0 c7opts
        ⟨[], ⟨[], 0⟩⟩).options.searchIn = ["content", "filename"] ∧
    c7opts.searchIn = ["filename", "content"] := by
  refine ⟨by decide, rfl⟩

/-! ## C8: `cleanTextContent` -/

/-- No two adjacent whitespace characters. -/
def noTwoWs : List Char → Bool
  | [] => true
  | [_] => true
  | a :: b :: rest => !(isJsWs a && isJsWs b) && noTwoWs (b :: rest)

def headWs : List Char → Bool
  | [] => false
  | c :: _ => isJsWs c

theorem headWs_dropWhile_ws : ∀ l : List Char, headWs (l.dropWhile isJsWs) = false := by
  intro l
  induction l with
  | nil => simp [List.dropWhile, headWs]
  | cons c rest ih =>
    by_cases h : isJsWs c
    · simp [List.dropWhile, h, ih]
    · simp [List.dropWhile, h, headWs]

theorem noTwoWs_cons {a : Char} {l : List Char} (hhead : headWs l = false)
    (hl : noTwoWs l = true) : noTwoWs (a :: l) = true := by
  cases l with
  | nil => simp [noTwoWs]
  | cons b rest =>
    simp only [headWs] at hhead
    simp [noTwoWs, hhead, hl]

theorem noTwoWs_cons_notws {a : Char} {l : List Char} (ha : isJsWs a = false)
    (hl : noTwoWs l = true) : noTwoWs (a :: l) = true := by
  cases l with
  | nil => simp [noTwoWs]
  | cons b rest => simp [noTwoWs, ha, hl]

theorem collapseWsGo_props :
    ∀ (fuel : Nat) (l : List Char), l.length ≤ fuel →
      noTwoWs (collapseWsGo fuel l) = true ∧
        (headWs (collapseWsGo fuel l) = true → headWs l = true) := by
  intro fuel
  induction fuel with
  | zero => intro l _; simp [collapseWsGo, noTwoWs, headWs]
  | succ fuel ih =>
    intro l hlen
    cases l with
    | nil => simp [collapseWsGo, noTwoWs, headWs]
    | cons c rest =>
      simp only [List.length_cons, Nat.succ_le_succ_iff] at hlen
      by_cases hws : isJsWs c
      · have hlen' : (rest.dropWhile isJsWs).length ≤ fuel :=
          le_trans (length_dropWhile_le' isJsWs rest) hlen
        obtain ⟨h1, h2⟩ := ih (rest.dropWhile isJsWs) hlen'
        have hhead : headWs (collapseWsGo fuel (rest.dropWhile isJsWs)) = false := by
          cases hh : headWs (collapseWsGo fuel (rest.dropWhile isJsWs)) with
          | false => rfl
          | true =>
            have hcon := h2 hh
            rw [headWs_dropWhile_ws rest] at hcon
            exact absurd hcon (by simp)
        simp only [collapseWsGo, if_pos hws]
        exact ⟨noTwoWs_cons hhead h1, fun _ => by simp [headWs, hws]⟩
      · have hlen' : rest.length ≤ fuel := hlen
        obtain ⟨h1, _⟩ := ih rest hlen'
        simp only [collapseWsGo, if_neg hws]
        refine ⟨noTwoWs_cons_notws (by simpa using hws) h1, ?_⟩
        intro hcontra
        simp [headWs] at hcontra ⊢
        exact hcontra

theorem noTwoWs_tail {a : Char} {l : List Char} (h : noTwoWs (a :: l) = true) :
    noTwoWs l = true := by
  cases l with
  | nil => simp [noTwoWs]
  | cons b rest =>
    simp only [noTwoWs, Bool.and_eq_true] at h
    exact h.2

theorem noTwoWs_take : ∀ (l : List Char) (n : Nat), noTwoWs l = true →
    noTwoWs (l.take n) = true := by
  intro l
  induction l with
  | nil => intro n _; simp [noTwoWs]
  | cons a rest ih =>
    intro n h
    cases n with
    | zero => simp [noTwoWs]
    | succ m =>
      cases rest with
      | nil => simp [List.take, noTwoWs]
      | cons b rest' =>
        cases m with
        | zero => simp [List.take, noTwoWs]
        | succ k =>
          simp only [List.take]
          simp only [noTwoWs, Bool.and_eq_true] at h
          have := ih (k + 1) h.2
          simp only [List.take] at this
          simp [noTwoWs, h.1, this]

theorem noTwoWs_dropWhile (p : Char → Bool) : ∀ l : List Char, noTwoWs l = true →
    noTwoWs (l.dropWhile p) = true := by
  intro l
  induction l with
  | nil => intro h; simpa [List.dropWhile] using h
  | cons a rest ih =>
    intro h
    by_cases hp : p a
    · simp only [List.dropWhile, hp]
      exact ih (noTwoWs_tail h)
    · simpa [List.dropWhile, hp] using h

theorem noTwoWs_append_single : ∀ (l : List Char) (a : Char), noTwoWs l = true →
    (∀ x, l.getLast? = some x → (isJsWs x && isJsWs a) = false) →
    noTwoWs (l ++ [a]) = true := by
  intro l
  induction l with
  | nil => intro a _ _; simp [noTwoWs]
  | cons b rest ih =>
    intro a h hlast
    cases rest with
    | nil =>
      simp only [List.nil_append, List.cons_append]
      simp [noTwoWs, hlast b rfl]
    | cons c rest' =>
      simp only [List.cons_append]
      simp only [noTwoWs, Bool.and_eq_true] at h
      have hrec := ih a h.2 (fun x hx => hlast x (by rw [← hx]; simp [List.getLast?]))
      simp only [List.cons_append] at hrec
      simp [noTwoWs, h.1, hrec]

theorem noTwoWs_reverse : ∀ l : List Char, noTwoWs l = true →
    noTwoWs l.reverse = true := by
  intro l
  induction l with
  | nil => intro h; simpa using h
  | cons a rest ih =>
    intro h
    rw [List.reverse_cons]
    apply noTwoWs_append_single _ _ (ih (noTwoWs_tail h))
    intro x hx
    rw [List.getLast?_reverse] at hx
    cases rest with
    | nil => simp at hx
    | cons b rest' =>
      simp only [List.head?] at hx
      have hb : x = b := by
        injection hx with h'
        exact h'.symm
      have hna : (isJsWs a && isJsWs b) = false := by
        have h1 : noTwoWs (a :: b :: rest') = true := h
        simp only [noTwoWs, Bool.and_eq_true, Bool.not_eq_true'] at h1
        exact h1.1
      rw [hb, Bool.and_comm]
      exact hna

theorem noTwoWs_jsTrim {l : List Char} (h : noTwoWs l = true) :
    noTwoWs (jsTrim l) = true := by
  unfold jsTrim
  exact noTwoWs_reverse _ (noTwoWs_dropWhile _ _ (noTwoWs_reverse _
    (noTwoWs_dropWhile _ _ h)))

theorem collapseWsGo_mem :
    ∀ (fuel : Nat) (l : List Char) (c : Char), c ∈ collapseWsGo fuel l →
      c = ' ' ∨ c ∈ l := by
  intro fuel
  induction fuel with
  | zero => intro l c hc; simp [collapseWsGo] at hc
  | succ fuel ih =>
    intro l c hc
    cases l with
    | nil => simp [collapseWsGo] at hc
    | cons a rest =>
      by_cases hws : isJsWs a
      · simp only [collapseWsGo, if_pos hws] at hc
        rcases List.mem_cons.mp hc with h | h
        · exact Or.inl h
        · rcases ih _ c h with h' | h'
          · exact Or.inl h'
          · exact Or.inr (List.mem_cons_of_mem a
              ((List.dropWhile_suffix isJsWs).sublist.subset h'))
      · simp only [collapseWsGo, if_neg hws] at hc
        rcases List.mem_cons.mp hc with h | h
        · exact Or.inr (by rw [h]; exact List.mem_cons_self a rest)
        · rcases ih _ c h with h' | h'
          · exact Or.inl h'
          · exact Or.inr (List.mem_cons_of_mem a h')

theorem jsTrim_length_le (l : List Char) : (jsTrim l).length ≤ l.length := by
  unfold jsTrim
  calc ((l.dropWhile isJsWs).reverse.dropWhile isJsWs).reverse.length
      = ((l.dropWhile isJsWs).reverse.dropWhile isJsWs).length := List.length_reverse _
    _ ≤ (l.dropWhile isJsWs).reverse.length := length_dropWhile_le' _ _
    _ = (l.dropWhile isJsWs).length := List.length_reverse _
    _ ≤ l.length := length_dropWhile_le' _ _

/-- C8 (amended): the cleaned text is always at most 100,000 characters; and
*provided the raw content contains no control characters of the stripped
class*, it contains no two consecutive whitespace characters.  The general
claim fails because the code collapses whitespace **before** stripping
control characters, so removing a control character can join two spaces (see
the counterexample). -/
theorem cleanTextContent_bounds (content : String) :
    (cleanTextContent content).length ≤ 100000 ∧
    ((∀ c ∈ content.data, isStrippedCtrl c = false) →
      noTwoWs (cleanTextContent content).data = true) := by
  constructor
  · show (String.mk _).length ≤ 100000
    simp only [String.length]
    calc (jsTrim ((((collapseWs content.data).filter
          (fun c => !isStrippedCtrl c)).take 100000))).length
        ≤ ((((collapseWs content.data).filter
            (fun c => !isStrippedCtrl c)).take 100000)).length := jsTrim_length_le _
      _ ≤ 100000 := List.length_take_le _ _
  · intro hctrl
    have hfilter : ((collapseWs content.data).filter (fun c => !isStrippedCtrl c)) =
        collapseWs content.data := by
      apply List.filter_eq_self.mpr
      intro a ha
      rcases collapseWsGo_mem _ _ a ha with h | h
      · rw [h]; decide
      · simp [hctrl a h]
    show noTwoWs (jsTrim _) = true
    rw [hfilter]
    apply noTwoWs_jsTrim
    apply noTwoWs_take
    exact (collapseWsGo_props content.data.length content.data (le_refl _)).1

theorem cleanTextContent_bounds_witness :
    (∀ c ∈ "a  b".data, isStrippedCtrl c = false) ∧
    noTwoWs (cleanTextContent "a  b").data = true :=
  ⟨by decide, (cleanTextContent_bounds "a  b").2 (by decide)⟩

/-- Modelled from the spec: the operation order the claim describes — strip
the control-character class first, then collapse whitespace runs to single
spaces, then truncate to 100,000 characters. -/
def cleanTextContentSpec (content : String) : String :=
  String.mk ((collapseWs (content.data.filter (fun c => !isStrippedCtrl c))).take 100000)

/-- C8 counterexample: on `"a \x01 b"` the code yields `"a  b"` — two
consecutive spaces — because the control character is stripped *after* the
whitespace collapse; the spec's strip-then-collapse order would give
`"a b"`. -/
theorem cleanTextContent_double_space_counterexample :
    cleanTextContent "a \x01 b" = "a  b" ∧
    noTwoWs (cleanTextContent "a \x01 b").data = false ∧
    cleanTextContentSpec "a \x01 b" = "a b" := by
  refine ⟨by decide, by decide, by decide⟩

/-! ## C9 and C10: the result cache -/

theorem lexLe_total : ∀ x y : List Char, lexLe x y = true ∨ lexLe y x = true := by
  intro x
  induction x with
  | nil => intro y; left; simp [lexLe]
  | cons a as ih =>
    intro y
    cases y with
    | nil => right; simp [lexLe]
    | cons b bs =>
      rcases lt_trichotomy a b with h | h | h
      · left; simp [lexLe, h]
      · subst h
        rcases ih bs with h' | h'
        · left; simp [lexLe, lt_irrefl, h']
        · right; simp [lexLe, lt_irrefl, h']
      · right; simp [lexLe, h]

theorem lexLe_trans : ∀ x y z : List Char, lexLe x y = true → lexLe y z = true →
    lexLe x z = true := by
  intro x
  induction x with
  | nil => intro y z _ _; simp [lexLe]
  | cons a as ih =>
    intro y z hxy hyz
    cases y with
    | nil => simp [lexLe] at hxy
    | cons b bs =>
      cases z with
      | nil => simp [lexLe] at hyz
      | cons c cs =>
        rcases lt_trichotomy a b with hab | hab | hab
        · have hbc : ¬ c < b := by
            intro hcb
            have hbc' : ¬ b < c := lt_asymm hcb
            simp [lexLe, hbc', hcb] at hyz
          have hac : a < c := lt_of_lt_of_le hab (le_of_not_lt hbc)
          simp [lexLe, hac]
        · subst hab
          rcases lt_trichotomy a c with hac | hac | hac
          · simp [lexLe, hac]
          · subst hac
            simp only [lexLe, if_neg (lt_irrefl a)] at hxy hyz ⊢
            exact ih bs cs hxy hyz
          · have hca : ¬ a < c := lt_asymm hac
            simp [lexLe, hca, hac] at hyz
        · have hba : ¬ a < b := lt_asymm hab
          simp [lexLe, hba, hab] at hxy

instance : IsTotal String (fun a b => strLe a b = true) :=
  ⟨fun a b => lexLe_total a.data b.data⟩

instance : IsTrans String (fun a b => strLe a b = true) :=
  ⟨fun a b c => lexLe_trans a.data b.data c.data⟩

theorem jsSortStrs_idem (l : List String) : jsSortStrs (jsSortStrs l) = jsSortStrs l := by
  unfold jsSortStrs
  exact List.Sorted.insertionSort_eq (List.sorted_insertionSort _ l)

theorem getCacheKey_idem (opts : SearchOptionsM) :
    getCacheKey (getCacheKey opts).2 = getCacheKey opts := by
  cases opts with
  | mk q si ft sr dr bp lim ic cs =>
    simp only [getCacheKey, jsSortStrs_idem]
    cases ft <;> simp [jsSortStrs_idem]

theorem assocFindK_eq_none_iff [DecidableEq κ] (m : List (κ × α)) (k : κ) :
    assocFindK m k = none ↔ k ∉ m.map Prod.fst := by
  induction m with
  | nil => simp [assocFindK]
  | cons p rest ih =>
    by_cases h : p.1 = k
    · simp [assocFindK, h]
    · simp [assocFindK, h, ih, Ne.symm h]

theorem assocSetK_not_mem [DecidableEq κ] {m : List (κ × α)} {k : κ}
    (h : assocFindK m k = none) (v : α) : assocSetK m k v = m ++ [(k, v)] := by
  induction m with
  | nil => simp [assocSetK]
  | cons p rest ih =>
    by_cases hk : p.1 = k
    · simp [assocFindK, hk] at h
    · simp only [assocFindK, if_neg hk] at h
      simp [assocSetK, hk, ih h]

theorem assocFindK_append_last [DecidableEq κ] {m : List (κ × α)} {k : κ}
    (h : assocFindK m k = none) (v : α) : assocFindK (m ++ [(k, v)]) k = some v := by
  induction m with
  | nil => simp [assocFindK]
  | cons p rest ih =>
    by_cases hk : p.1 = k
    · simp [assocFindK, hk] at h
    · simp only [assocFindK, if_neg hk] at h
      simp only [List.cons_append, assocFindK, if_neg hk]
      exact ih h

theorem assocFindK_filter_ne [DecidableEq κ] {m : List (κ × α)} {k k0 : κ}
    (hne : k0 ≠ k) :
    assocFindK (m.filter (fun e => e.1 ≠ k0)) k = assocFindK m k := by
  induction m with
  | nil => simp [assocFindK]
  | cons p rest ih =>
    simp only [decide_not] at ih ⊢
    by_cases hp : p.1 = k0
    · have hpk : p.1 ≠ k := by rw [hp]; exact hne
      simp [List.filter_cons, assocFindK, hp, hpk, hne, ih]
    · by_cases hpk : p.1 = k
      · simp [List.filter_cons, assocFindK, hp, hpk, Ne.symm hne, ih]
      · simp [List.filter_cons, assocFindK, hp, hpk, ih]

theorem cacheResults_find_fresh {cache : List (CacheKeyM × ResultCacheEntry)}
    {key : CacheKeyM} (rs : List SearchResultM) (now : Int)
    (h : assocFindK cache key = none) :
    assocFindK (cacheResults cache key rs now) key = some ⟨rs, now⟩ := by
  simp only [cacheResults, assocSetK_not_mem h]
  by_cases hlen : (cache ++ [(key, (⟨rs, now⟩ : ResultCacheEntry))]).length > 100
  · rw [if_pos hlen]
    have hne : cache ≠ [] := by
      intro hnil
      rw [hnil] at hlen
      simp at hlen
    obtain ⟨e0, rest, hc⟩ := List.exists_cons_of_ne_nil hne
    subst hc
    simp only [List.cons_append, List.head?]
    have he0 : e0.1 ≠ key := by
      intro he
      have := (assocFindK_eq_none_iff _ key).mp h
      apply this
      rw [← he]
      exact List.mem_map_of_mem Prod.fst (List.mem_cons_self e0 rest)
    rw [assocFindK_filter_ne he0]
    exact assocFindK_append_last h _
  · rw [if_neg hlen]
    exact assocFindK_append_last h _

theorem resultCacheValid_of (now t : Int) (rs : List SearchResultM)
    (h : now - t < 60000) : resultCacheValid now ⟨rs, t⟩ = true := by
  simp [resultCacheValid]
  exact h

/-- C9 (amended): with an unchanged backing store, two consecutive identical
`search` calls within the 1-minute result-cache TTL return identical result
lists — *provided the first call goes through the indexed path* (a fresh key
and a successful index fetch), which caches its list; the repeat call hits
that entry.  When the first call degrades to the fallback search nothing is
cached and a repeated fallback may differ (see the counterexample). -/
theorem search_idempotent_within_ttl (oracle : StoreOracle) (cfg : SearchConfig)
    (now1 now2 : Int) (opts : SearchOptionsM) (st : EngineState) (idx : FileIndexM)
    (hmiss : assocFindK st.resultCache (getCacheKey opts).1 = none)
    (hidx : oracle.getIndex (jsOrS opts.basePath "/") (useQuickMode opts.basePath) =
      Except.ok idx)
    (httl : now2 - now1 < 60000) :
    (search oracle cfg now2 (search oracle cfg now1 opts st).options
        (search oracle cfg now1 opts st).state).result =
      (search oracle cfg now1 opts st).result := by
  by_cases hterm : (parseQuery opts.query).terms.length = 0
  · simp [search, hterm]
  · have hidx' : oracle.getIndex (jsOrS (getCacheKey opts).2.basePath "/")
        (useQuickMode (getCacheKey opts).2.basePath) = Except.ok idx := hidx
    have hterm' : ¬ (parseQuery (getCacheKey opts).2.query).terms.length = 0 := hterm
    simp only [search, if_neg hterm, hmiss, searchCore_options_eq]
    simp only [searchCore, hidx']
    simp only [search, if_neg hterm', getCacheKey_idem, hmiss]
    simp only [cacheResults_find_fresh _ now1 hmiss,
      resultCacheValid_of now2 now1 _ httl, if_true]

theorem search_idempotent_within_ttl_witness :
    assocFindK wState0.resultCache (getCacheKey wOpts).1 = none ∧
    (search wOracle DEFAULT_SEARCH_CONFIG 9000000000001
        (search wOracle DEFAULT_SEARCH_CONFIG 9000000000000 wOpts wState0).options
        (search wOracle DEFAULT_SEARCH_CONFIG 9000000000000 wOpts wState0).state).result =
      (search wOracle DEFAULT_SEARCH_CONFIG 9000000000000 wOpts wState0).result :=
  ⟨rfl,
   search_idempotent_within_ttl wOracle DEFAULT_SEARCH_CONFIG
     9000000000000 9000000000001 wOpts wState0 wIndex rfl rfl (by decide)⟩

def c9entry : DirEntryM :=
  { path := some "/b1", href := none, name := some "b1", size := some 1,
    lastModified := none, mimeType := some "text/plain", contentType := none,
    isDirectory := some false }

def c9oracle : StoreOracle :=
  { getIndex := fun _ _ => Except.error "Indexing timeout"
    listDirectory := fun _ => Except.ok [c9entry]
    readFile := fun _ => Except.error "x" }

def c9opts : SearchOptionsM :=
  { query := "b", searchIn := ["filename"], fileTypes := none, sizeRange := none,
    dateRange := none, basePath := none, limit := none,
    includeContent := none, caseSensitive := none }

/-- C9 counterexample: the backing store is unchanged between two identical
calls 1 ms apart (well within the TTL), but the index fetch always times out
so both calls run the fallback search, which is never cached; the listing
entry carries no `lastModified`, so `parseDirectoryContents` stamps it with
the current time — the first call's single result has `file.lastModified = 0`
and the second call's has `1`.  The two result lists are not identical. -/
theorem search_repeat_fallback_counterexample :
    ((search c9oracle DEFAULT_SEARCH_CONFIG 0 c9opts
        ⟨[], ⟨[], 0⟩⟩).result.toOption.getD []).map (fun r => r.file.lastModified) =
      [0] ∧
    ((search c9oracle DEFAULT_SEARCH_CONFIG 1
        (search c9oracle DEFAULT_SEARCH_CONFIG 0 c9opts ⟨[], ⟨[], 0⟩⟩).options
        (search c9oracle DEFAULT_SEARCH_CONFIG 0 c9opts
          ⟨[], ⟨[], 0⟩⟩).state).result.toOption.getD []).map
        (fun r => r.file.lastModified) = [1] := by
  refine ⟨by decide, by decide⟩

/-- The engine's term extraction depends only on the lowercased query. -/
theorem parseQuery_terms_of_lc {q1 q2 : String} (h : lc q2 = lc q1) :
    (parseQuery q2).terms = (parseQuery q1).terms := by
  simp only [parseQuery]
  rw [h]

/-- C10: the result-cache key is built only from the lowercased query, sorted
`searchIn`, sorted `fileTypes`, `basePath` and `caseSensitive`.  A second
call within the TTL agreeing on those five but differing in `limit`,
`includeContent`, `sizeRange` or `dateRange` (none of which are hypotheses
here) returns exactly the first call's cached list. -/
theorem search_cache_key_ignores_other_options (oracle : StoreOracle)
    (cfg : SearchConfig) (now1 now2 : Int) (opts1 opts2 : SearchOptionsM)
    (st : EngineState) (idx : FileIndexM)
    (hterm : (parseQuery opts1.query).terms.length ≠ 0)
    (hmiss : assocFindK st.resultCache (getCacheKey opts1).1 = none)
    (hidx : oracle.getIndex (jsOrS opts1.basePath "/") (useQuickMode opts1.basePath) =
      Except.ok idx)
    (httl : now2 - now1 < 60000)
    (hq : lc opts2.query = lc opts1.query)
    (hs : jsSortStrs opts2.searchIn = jsSortStrs opts1.searchIn)
    (hf : opts2.fileTypes.map jsSortStrs = opts1.fileTypes.map jsSortStrs)
    (hb : opts2.basePath = opts1.basePath)
    (hcs : opts2.caseSensitive = opts1.caseSensitive) :
    (search oracle cfg now2 opts2 (search oracle cfg now1 opts1 st).state).result =
      (search oracle cfg now1 opts1 st).result := by
  have hkey : (getCacheKey opts2).1 = (getCacheKey opts1).1 := by
    simp only [getCacheKey]
    rw [hq, hs, hf, hb, hcs]
  have hterm2 : ¬ (parseQuery opts2.query).terms.length = 0 := by
    rw [parseQuery_terms_of_lc hq]
    exact hterm
  have hidx' : oracle.getIndex (jsOrS (getCacheKey opts1).2.basePath "/")
      (useQuickMode (getCacheKey opts1).2.basePath) = Except.ok idx := hidx
  simp only [search, if_neg hterm, hmiss, searchCore_options_eq]
  simp only [searchCore, hidx']
  simp only [search, if_neg hterm2, hkey]
  simp only [cacheResults_find_fresh _ now1 hmiss,
    resultCacheValid_of now2 now1 _ httl, if_true]

def c10opts1 : SearchOptionsM :=
  { query := "b", searchIn := ["filename"], fileTypes := none, sizeRange := none,
    dateRange := none, basePath := some "/docs", limit := some 1,
    includeContent := none, caseSensitive := none }

def c10opts2 : SearchOptionsM :=
  { query := "b", searchIn := ["filename"], fileTypes := none,
    sizeRange := some ⟨some 5, none⟩, dateRange := none, basePath := some "/docs",
    limit := some 50, includeContent := some true, caseSensitive := none }

theorem search_cache_key_ignores_other_options_witness :
    c10opts1.limit ≠ c10opts2.limit ∧
    (search wOracle DEFAULT_SEARCH_CONFIG 9000000000001 c10opts2
        (search wOracle DEFAULT_SEARCH_CONFIG 9000000000000 c10opts1
          ⟨[], ⟨[], 0⟩⟩).state).result =
      (search wOracle DEFAULT_SEARCH_CONFIG 9000000000000 c10opts1
        ⟨[], ⟨[], 0⟩⟩).result :=
  ⟨by decide,
   search_cache_key_ignores_other_options wOracle DEFAULT_SEARCH_CONFIG
     9000000000000 9000000000001 c10opts1 c10opts2 ⟨[], ⟨[], 0⟩⟩ wIndex
     (by decide) rfl rfl (by decide) rfl rfl rfl rfl rfl⟩
